import Mathlib

set_option linter.unusedSectionVars false

/-!
# Matching engine (`matching_engine.h`, `matching_engine.cpp`)

A shallow embedding of the limit-order matching engine and a verification of
its specification.

Modelling choices.

* `double` prices: the engine copies prices, compares them with `<=` and `>=`
  in the crossing tests, and uses them as keys of two `std::map`s, whose
  comparators `std::less` and `std::greater` are `<` and `>`.  The definitions
  work over any type `P` with decidable `<` and `≤` and a zero (the zero is the
  price of a value-initialised `BookEntry`); `a >= b` is `b ≤ a` and `a > b` is
  `b < a`, as for `double`.  `Double` below is such a type with a NaN, every
  comparison with which is false.  The general theorems are about a linearly
  ordered `P`, that is, about the runs in which no price is NaN (`-0.0` and
  `0.0`, which compare equal, are one price); concrete runs of that kind use
  `Int`, and the runs with a NaN price are evaluated at `Double`.
* `uint64_t` quantities, identifiers, timestamps and `size_t` positions are
  natural numbers.  The only subtraction is `x -= min(a, b)` with `x` one of
  `a`, `b`, and the only addition is a loop counter bounded by a container
  size, so no operation wraps.
* `std::map<double, PriceLevel<Order>, Cmp>` is the list of its
  `(key, level)` pairs in iteration order.  A lookup identifies keys as
  `std::map` does, by equivalence under the comparator (neither key before the
  other), so a NaN is found in the first level of a non-empty book.
  `std::deque<Order>` is a list with
  the front at the head; `std::unordered_map<OrderId, BookEntry>` is an
  association list with at most one pair per key (its iteration order is never
  observed by the engine).
-/

namespace Exchange

/-- Side of an order: `BUY` orders rest in `bids`, `SELL` orders in `asks`. -/
inductive Side where
  | BUY
  | SELL
deriving DecidableEq, Repr

abbrev OrderId := Nat

/-- The `Order` struct of `matching_engine.h`. -/
structure Order (P : Type) where
  id : OrderId
  side : Side
  price : P
  quantity : Nat
  timestamp : Nat
deriving DecidableEq, Repr

/-- A price level: the FIFO queue (`std::deque`) of orders at one price. -/
abbrev PriceLevel (P : Type) := List (Order P)

/-- The private `BookEntry` struct: where an order rests. -/
structure BookEntry (P : Type) where
  side : Side
  price : P
  index : Nat
deriving DecidableEq, Repr

/-- One element of the vector returned by `addOrder`:
`(orderId, matchedOrderId, price, quantity)`. -/
structure Trade (P : Type) where
  taker : OrderId
  maker : OrderId
  price : P
  quantity : Nat
deriving DecidableEq, Repr

/-- A `std::map<double, PriceLevel<Order>, Cmp>` in iteration order. -/
abbrev Book (P : Type) := List (P × PriceLevel P)

/-- The `std::unordered_map<OrderId, BookEntry>`. -/
abbrev OrderIndex (P : Type) := List (OrderId × BookEntry P)

/-- The data members of `MatchingEngine`. -/
structure MatchingEngine (P : Type) where
  bids : Book P
  asks : Book P
  orderIndex : OrderIndex P
deriving DecidableEq, Repr

/-- A `double` for concrete runs with a NaN: `nan`, or the number `num x`. -/
inductive Double where
  | nan
  | num (x : Int)
deriving DecidableEq, Repr

/-- `a < b` on `double`: false when either side is NaN. -/
def Double.blt : Double → Double → Bool
  | Double.num x, Double.num y => decide (x < y)
  | _, _ => false

/-- `a <= b` on `double`: false when either side is NaN. -/
def Double.ble : Double → Double → Bool
  | Double.num x, Double.num y => decide (x ≤ y)
  | _, _ => false

instance : LT Double := ⟨fun a b => Double.blt a b = true⟩

instance : LE Double := ⟨fun a b => Double.ble a b = true⟩

instance Double.decidableLT (a b : Double) : Decidable (a < b) :=
  inferInstanceAs (Decidable (Double.blt a b = true))

instance Double.decidableLE (a b : Double) : Decidable (a ≤ b) :=
  inferInstanceAs (Decidable (Double.ble a b = true))

instance : Zero Double := ⟨Double.num 0⟩

section Defs

variable {P : Type} [LT P] [LE P] [DecidableRel (fun a b : P => a < b)]
  [DecidableRel (fun a b : P => a ≤ b)] [Zero P]

/-- The comparator of the book of side `s`: `std::greater` for `bids`,
`std::less` for `asks`.  `keyBefore s a b` says key `a` is iterated before
key `b`. -/
def keyBefore (s : Side) (a b : P) : Prop :=
  match s with
  | Side.BUY => b < a
  | Side.SELL => a < b

instance keyBeforeDecidable (s : Side) (a b : P) : Decidable (keyBefore s a b) := by
  cases s
  · exact inferInstanceAs (Decidable (b < a))
  · exact inferInstanceAs (Decidable (a < b))

/-! ### `std::map` operations -/

/-- Two keys are the same key for `std::map`: neither is before the other under
the comparator.  For `std::less` and for `std::greater` alike this is: neither
is less than the other. -/
def keyEquiv (a b : P) : Prop :=
  ¬ a < b ∧ ¬ b < a

instance keyEquivDecidable (a b : P) : Decidable (keyEquiv a b) :=
  inferInstanceAs (Decidable (¬ a < b ∧ ¬ b < a))

/-- `book.find(p)`: the level stored under the key equivalent to `p`, if any. -/
def mapFind : Book P → P → Option (PriceLevel P)
  | [], _ => none
  | (k, level) :: rest, p => if keyEquiv k p then some level else mapFind rest p

/-- `book[p]`: the book after `operator[]`, which adds an empty level under
`p` at its place in the key order when no key is equivalent to `p`. -/
def mapSubscript (s : Side) : Book P → P → Book P
  | [], p => [(p, [])]
  | (k, level) :: rest, p =>
    if keyEquiv k p then (k, level) :: rest
    else if keyBefore s p k then (p, []) :: (k, level) :: rest
    else (k, level) :: mapSubscript s rest p

/-- A write through a reference to the level found for key `p`. -/
def mapAssign : Book P → P → PriceLevel P → Book P
  | [], _, _ => []
  | (k, level) :: rest, p, new =>
    if keyEquiv k p then (k, new) :: rest else (k, level) :: mapAssign rest p new

/-- `book.erase(it)` for the iterator found for key `p`. -/
def mapErase : Book P → P → Book P
  | [], _ => []
  | (k, level) :: rest, p =>
    if keyEquiv k p then rest else (k, level) :: mapErase rest p

/-! ### `std::unordered_map` operations -/

/-- `orderIndex.find(id)`. -/
def indexFind : OrderIndex P → OrderId → Option (BookEntry P)
  | [], _ => none
  | (k, entry) :: rest, id => if k = id then some entry else indexFind rest id

/-- `orderIndex.erase(id)`. -/
def indexErase : OrderIndex P → OrderId → OrderIndex P
  | [], _ => []
  | (k, entry) :: rest, id =>
    if k = id then indexErase rest id else (k, entry) :: indexErase rest id

/-- `orderIndex[id] = entry`. -/
def indexAssign : OrderIndex P → OrderId → BookEntry P → OrderIndex P
  | [], id, entry => [(id, entry)]
  | (k, old) :: rest, id, entry =>
    if k = id then (k, entry) :: rest else (k, old) :: indexAssign rest id entry

/-- `orderIndex[id].index = i`: `operator[]` value-initialises the entry
(`BUY`, `0.0`, `0`) when the key is absent. -/
def indexSetIndex (oi : OrderIndex P) (id : OrderId) (i : Nat) : OrderIndex P :=
  match indexFind oi id with
  | some entry => indexAssign oi id { entry with index := i }
  | none => indexAssign oi id { side := Side.BUY, price := 0, index := i }

/-- The loop `for (...; i < level.size(); ++i) orderIndex[level[i].id].index = i;`
run over the orders `level[i], level[i+1], ...` given as the first argument. -/
def reindexLoop : List (Order P) → Nat → OrderIndex P → OrderIndex P
  | [], _, oi => oi
  | o :: rest, i, oi => reindexLoop rest (i + 1) (indexSetIndex oi o.id i)

/-- The re-indexing loop started at position `start` of `level`. -/
def reindexFrom (level : PriceLevel P) (start : Nat) (oi : OrderIndex P) : OrderIndex P :=
  reindexLoop (level.drop start) start oi

/-! ### `matchOrder` -/

/-- The local state of `matchOrder`: its by-value copy of the incoming order,
the book it was handed, the engine's `orderIndex`, and the trade vector. -/
structure MatchState (P : Type) where
  incoming : Order P
  book : Book P
  orderIndex : OrderIndex P
  trades : List (Trade P)
deriving DecidableEq, Repr

/-- The result of the inner `while (!level.empty() && incoming.quantity > 0)`
loop of `matchOrder` on one price level. -/
structure LevelState (P : Type) where
  incoming : Order P
  level : PriceLevel P
  orderIndex : OrderIndex P
  trades : List (Trade P)
deriving DecidableEq, Repr

/-- The inner loop of `matchOrder` at the level of key `bookPrice`.  When the
head order keeps a positive quantity the incoming order has none left
(`matchLevel_exit` below), so the loop condition fails and the loop ends. -/
def matchLevel (bookPrice : P) :
    Order P → PriceLevel P → OrderIndex P → List (Trade P) → LevelState P
  | incoming, [], oi, trades => ⟨incoming, [], oi, trades⟩
  | incoming, top :: rest, oi, trades =>
    if incoming.quantity > 0 then
      let executed := min incoming.quantity top.quantity
      let incoming1 := { incoming with quantity := incoming.quantity - executed }
      let top1 := { top with quantity := top.quantity - executed }
      let trades1 := trades ++ [⟨incoming.id, top.id, bookPrice, executed⟩]
      if top1.quantity = 0 then
        matchLevel bookPrice incoming1 rest (reindexFrom rest 0 (indexErase oi top.id)) trades1
      else
        ⟨incoming1, top1 :: rest, oi, trades1⟩
    else
      ⟨incoming, top :: rest, oi, trades⟩

/-- The outer loop shared by the two `matchOrder` overloads; `crosses` is the
crossing test of the overload.  The iterator is always `book.begin()`:
it starts there and `it = book.erase(it)` erases the first level. -/
def matchLoop (crosses : Order P → P → Bool) :
    Order P → Book P → OrderIndex P → List (Trade P) → MatchState P
  | incoming, [], oi, trades => ⟨incoming, [], oi, trades⟩
  | incoming, (bookPrice, level) :: rest, oi, trades =>
    if incoming.quantity > 0 then
      if !(crosses incoming bookPrice) then
        ⟨incoming, (bookPrice, level) :: rest, oi, trades⟩
      else
        let r := matchLevel bookPrice incoming level oi trades
        if r.level.isEmpty then
          matchLoop crosses r.incoming rest r.orderIndex r.trades
        else
          ⟨r.incoming, (bookPrice, r.level) :: rest, r.orderIndex, r.trades⟩
    else
      ⟨incoming, (bookPrice, level) :: rest, oi, trades⟩

/-- The overload of `matchOrder` for the `std::greater` map (`bids`). -/
def matchOrderBids (incoming : Order P) (book : Book P) (oi : OrderIndex P)
    (trades : List (Trade P)) : MatchState P :=
  matchLoop (fun inc bookPrice => inc.side = Side.SELL && inc.price ≤ bookPrice)
    incoming book oi trades

/-- The overload of `matchOrder` for the `std::less` map (`asks`). -/
def matchOrderAsks (incoming : Order P) (book : Book P) (oi : OrderIndex P)
    (trades : List (Trade P)) : MatchState P :=
  matchLoop (fun inc bookPrice => inc.side = Side.BUY && inc.price ≥ bookPrice)
    incoming book oi trades

/-! ### `addOrder` and `cancelOrder` -/

/-- `MatchingEngine::addOrder`.  `matchOrder` receives `incoming` by value, so
the quantity tested and inserted in step 2 is the quantity of `order`. -/
def addOrder (e : MatchingEngine P) (order : Order P) : MatchingEngine P × List (Trade P) :=
  let incoming := order
  let m := if incoming.side = Side.BUY then matchOrderAsks incoming e.asks e.orderIndex []
           else matchOrderBids incoming e.bids e.orderIndex []
  let e1 : MatchingEngine P :=
    if incoming.side = Side.BUY then { e with asks := m.book, orderIndex := m.orderIndex }
    else { e with bids := m.book, orderIndex := m.orderIndex }
  let trades := m.trades
  if incoming.quantity > 0 then
    if incoming.side = Side.BUY then
      let book := mapSubscript Side.BUY e1.bids incoming.price
      let level := (mapFind book incoming.price).getD [] ++ [incoming]
      ({ e1 with bids := mapAssign book incoming.price level,
                 orderIndex := indexAssign e1.orderIndex incoming.id
                   ⟨incoming.side, incoming.price, level.length - 1⟩ }, trades)
    else
      let book := mapSubscript Side.SELL e1.asks incoming.price
      let level := (mapFind book incoming.price).getD [] ++ [incoming]
      ({ e1 with asks := mapAssign book incoming.price level,
                 orderIndex := indexAssign e1.orderIndex incoming.id
                   ⟨incoming.side, incoming.price, level.length - 1⟩ }, trades)
  else
    (e1, trades)

/-- The body shared by the two branches of `cancelOrder`: remove position
`entry.index` from the level of `entry.price` in `book`, re-index the orders
behind it, and erase the level if it is empty. -/
def cancelInBook (book : Book P) (oi : OrderIndex P) (entry : BookEntry P) :
    Book P × OrderIndex P :=
  match mapFind book entry.price with
  | none => (book, oi)
  | some level =>
    let idx := entry.index
    let level1 := if idx < level.length then level.eraseIdx idx else level
    let oi1 := if idx < level.length then reindexFrom level1 idx oi else oi
    if level1.isEmpty then (mapErase book entry.price, oi1)
    else (mapAssign book entry.price level1, oi1)

/-- `MatchingEngine::cancelOrder`. -/
def cancelOrder (e : MatchingEngine P) (orderId : OrderId) : MatchingEngine P × Bool :=
  match indexFind e.orderIndex orderId with
  | none => (e, false)
  | some entry =>
    if entry.side = Side.BUY then
      let r := cancelInBook e.bids e.orderIndex entry
      ({ e with bids := r.1, orderIndex := indexErase r.2 orderId }, true)
    else
      let r := cancelInBook e.asks e.orderIndex entry
      ({ e with asks := r.1, orderIndex := indexErase r.2 orderId }, true)

/-! ### Runs of the engine -/

/-- A default-constructed `MatchingEngine`. -/
def MatchingEngine.empty : MatchingEngine P := ⟨[], [], []⟩

/-- A call of one of the two public member functions. -/
inductive Op (P : Type) where
  | add (order : Order P)
  | cancel (orderId : OrderId)
deriving DecidableEq, Repr

/-- The engine after one call. -/
def step (e : MatchingEngine P) : Op P → MatchingEngine P
  | Op.add order => (addOrder e order).1
  | Op.cancel orderId => (cancelOrder e orderId).1

/-- The engine after a sequence of calls. -/
def run (e : MatchingEngine P) (ops : List (Op P)) : MatchingEngine P :=
  ops.foldl step e

/-- The engine reached from the empty engine by a sequence of calls. -/
def reach (ops : List (Op P)) : MatchingEngine P :=
  run MatchingEngine.empty ops

/-- The orders handed to `addOrder` in a sequence of calls, in call order. -/
def addedOrders : List (Op P) → List (Order P)
  | [] => []
  | Op.add order :: rest => order :: addedOrders rest
  | Op.cancel _ :: rest => addedOrders rest

/-- The identifiers handed to `addOrder` in a sequence of calls. -/
def addedIds (ops : List (Op P)) : List OrderId :=
  (addedOrders ops).map (fun o => o.id)

/-- All orders resting in a book, best level first, oldest first in a level. -/
def bookOrders (book : Book P) : List (Order P) :=
  (book.map (fun kl => kl.2)).flatten

/-- The book of a side. -/
def bookOf (e : MatchingEngine P) : Side → Book P
  | Side.BUY => e.bids
  | Side.SELL => e.asks

/-- The opposite side. -/
def Side.opposite : Side → Side
  | Side.BUY => Side.SELL
  | Side.SELL => Side.BUY

/-- Sum of the executed quantities of a trade list. -/
def tradedQuantity (trades : List (Trade P)) : Nat :=
  (trades.map (fun t => t.quantity)).sum

/-! ### Vocabulary of the specification -/

/-- The keys of a book appear in the order of its comparator: the class
invariant of `std::map`. -/
def BookSorted (s : Side) (book : Book P) : Prop :=
  book.Pairwise (fun a b => keyBefore s a.1 b.1)

/-- The fields of an order that never change while it rests. -/
def Order.key (o : Order P) : OrderId × Side × P × Nat :=
  (o.id, o.side, o.price, o.timestamp)

/-- An order that may rest in the level of key `k` of the book of side `s`. -/
def Rests (s : Side) (k : P) (o : Order P) : Prop :=
  o.side = s ∧ o.price = k ∧ 0 < o.quantity

/-- A well-formed book of side `s`: keys in comparator order, no empty level,
and in each level only orders of that side and price with a positive quantity. -/
def BookWF (s : Side) (book : Book P) : Prop :=
  BookSorted s book ∧ ∀ kl ∈ book, kl.2 ≠ [] ∧ ∀ o ∈ kl.2, Rests s kl.1 o

/-- The `(id, level key)` pairs of the resting orders of a book, best level
first and oldest first in a level. -/
def bookMakers (book : Book P) : List (OrderId × P) :=
  (book.map (fun kl => kl.2.map (fun o => (o.id, kl.1)))).flatten

/-- The engine with the book of side `s` replaced. -/
def setBook (e : MatchingEngine P) (s : Side) (book : Book P) : MatchingEngine P :=
  match s with
  | Side.BUY => { e with bids := book }
  | Side.SELL => { e with asks := book }

/-- The crossing test of the `matchOrder` overload that serves the book of
side `s`. -/
def crossesOn (s : Side) (inc : Order P) (bookPrice : P) : Bool :=
  match s with
  | Side.BUY => inc.side = Side.SELL && inc.price ≤ bookPrice
  | Side.SELL => inc.side = Side.BUY && inc.price ≥ bookPrice

/-- Step 2 of `addOrder` on the book of side `s`: `level = book[price]` followed
by `level.push_back(incoming)`. -/
def pushBack (s : Side) (book : Book P) (o : Order P) : Book P :=
  mapAssign (mapSubscript s book o.price) o.price
    ((mapFind (mapSubscript s book o.price) o.price).getD [] ++ [o])

/-- Both books of an engine are well formed. -/
def EngineWF (e : MatchingEngine P) : Prop :=
  ∀ s, BookWF s (bookOf e s)

/-- The result of `matchOrder` inside `addOrder`. -/
def addOrderMatch (e : MatchingEngine P) (o : Order P) : MatchState P :=
  matchLoop (crossesOn o.side.opposite) o (bookOf e o.side.opposite) e.orderIndex []

/-- The total quantity with which orders of identifier `id` rest in a book. -/
def restingQuantity (book : Book P) (id : OrderId) : Nat :=
  (((bookOrders book).filter (fun o => o.id = id)).map (fun o => o.quantity)).sum

/-- The best price of a book: the key of its first level. -/
def bestPrice (book : Book P) : Option P :=
  book.head?.map Prod.fst

/-- The book is not crossed: a side is empty, or the best bid is strictly below
the best ask. -/
def NoCross (e : MatchingEngine P) : Prop :=
  match bestPrice e.bids, bestPrice e.asks with
  | some bid, some ask => bid < ask
  | _, _ => True

instance noCrossDecidable (e : MatchingEngine P) : Decidable (NoCross e) := by
  unfold NoCross
  split <;> infer_instance

/-- Every order of the level `L` of key `k` on side `s` has the index entry
`(s, k, position in L)`. -/
def IdxLevelOK (s : Side) (k : P) (L : PriceLevel P) (oi : OrderIndex P) : Prop :=
  ∀ j o, L[j]? = some o → indexFind oi o.id = some ⟨s, k, j⟩

/-- Every level of the book `B` of side `s` is indexed by position. -/
def LevelsOK (s : Side) (B : Book P) (oi : OrderIndex P) : Prop :=
  ∀ kl ∈ B, IdxLevelOK s kl.1 kl.2 oi

/-- Order `o` sits at position `j` of the level of key `k` in the book of side
`s`. -/
def RestsAt (e : MatchingEngine P) (s : Side) (k : P) (j : Nat) (o : Order P) : Prop :=
  ∃ L, mapFind (bookOf e s) k = some L ∧ L[j]? = some o

/-- The order index and the books agree: every resting order has the entry that
names its place, and every entry names the place of an order with its key. -/
def IndexInv (e : MatchingEngine P) : Prop :=
  (∀ s k j o, RestsAt e s k j o → indexFind e.orderIndex o.id = some ⟨s, k, j⟩) ∧
  (∀ id entry, indexFind e.orderIndex id = some entry →
    ∃ o, RestsAt e entry.side entry.price entry.index o ∧ o.id = id)

/-- The engine after step 1 of `addOrder`: the opposite book and the index as
`matchOrder` leaves them. -/
def afterMatch (e : MatchingEngine P) (o : Order P) : MatchingEngine P :=
  { setBook e o.side.opposite (addOrderMatch e o).book with
    orderIndex := (addOrderMatch e o).orderIndex }

/-- Step 2 of `addOrder`: the order is appended to the level of its price in the
book of its side and entered in the index. -/
def insertOrder (e : MatchingEngine P) (o : Order P) : MatchingEngine P :=
  { setBook e o.side (pushBack o.side (bookOf e o.side) o) with
    orderIndex := indexAssign e.orderIndex o.id
      ⟨o.side, o.price,
        ((mapFind (mapSubscript o.side (bookOf e o.side) o.price) o.price).getD []
          ++ [o]).length - 1⟩ }

/-- The state of a run with distinct identifiers: well-formed books, an index
that agrees with the books, and only identifiers of `used` resting. -/
def Consistent (used : List OrderId) (e : MatchingEngine P) : Prop :=
  EngineWF e ∧ IndexInv e ∧ ∀ s, ∀ o ∈ bookOrders (bookOf e s), o.id ∈ used

/-- The timestamps handed to `addOrder` in a sequence of calls, in call order. -/
def addedStamps (ops : List (Op P)) : List Nat :=
  (addedOrders ops).map (fun o => o.timestamp)

/-- A level in arrival order: timestamps strictly increase from the front, and
all of them are in `stamps`. -/
def LevelTimed (stamps : List Nat) (L : PriceLevel P) : Prop :=
  (L.map (fun o => o.timestamp)).Pairwise (fun a b => a < b) ∧
    ∀ o ∈ L, o.timestamp ∈ stamps

/-- Every level of both books is in arrival order. -/
def EngineTimed (stamps : List Nat) (e : MatchingEngine P) : Prop :=
  ∀ s, ∀ kl ∈ bookOf e s, LevelTimed stamps kl.2

/-- The total quantity of a list of orders. -/
def levelQuantity (L : List (Order P)) : Nat :=
  (L.map (fun o => o.quantity)).sum

end Defs

/-! ## Lemmas on the containers -/

section IndexLemmas

variable {P : Type}

theorem indexFind_indexAssign (oi : OrderIndex P) (id id' : OrderId) (entry : BookEntry P) :
    indexFind (indexAssign oi id entry) id' =
      if id' = id then some entry else indexFind oi id' := by
  induction oi with
  | nil =>
    by_cases h : id' = id
    · simp [indexAssign, indexFind, h]
    · have h' : ¬ id = id' := fun x => h x.symm
      simp [indexAssign, indexFind, h, h']
  | cons kv rest ih =>
    obtain ⟨k, old⟩ := kv
    by_cases hk : k = id
    · subst hk
      by_cases h : id' = k
      · subst h
        simp [indexAssign, indexFind]
      · have h' : ¬ k = id' := fun x => h x.symm
        simp [indexAssign, indexFind, h, h']
    · by_cases h : k = id'
      · subst h
        simp [indexAssign, indexFind, hk]
      · simp [indexAssign, indexFind, hk, h, ih]

theorem indexFind_indexErase (oi : OrderIndex P) (id id' : OrderId) :
    indexFind (indexErase oi id) id' = if id' = id then none else indexFind oi id' := by
  induction oi with
  | nil => simp [indexErase, indexFind]
  | cons kv rest ih =>
    obtain ⟨k, old⟩ := kv
    by_cases hk : k = id
    · subst hk
      by_cases h : id' = k
      · subst h
        simp [indexErase, indexFind, ih]
      · have h' : ¬ k = id' := fun x => h x.symm
        simp [indexErase, indexFind, ih, h, h']
    · by_cases h : k = id'
      · subst h
        simp [indexErase, indexFind, hk]
      · simp [indexErase, indexFind, hk, h, ih]

end IndexLemmas

section MapLemmas

variable {P : Type} [LinearOrder P]

theorem keyBefore_irrefl (s : Side) (a : P) : ¬ keyBefore s a a := by
  cases s <;> simp [keyBefore]

theorem keyBefore_trans {s : Side} {a b c : P} (h1 : keyBefore s a b) (h2 : keyBefore s b c) :
    keyBefore s a c := by
  cases s
  · exact lt_trans h2 h1
  · exact lt_trans h1 h2

theorem keyBefore_ne {s : Side} {a b : P} (h : keyBefore s a b) : a ≠ b := by
  intro hab
  subst hab
  exact keyBefore_irrefl s a h

theorem keyBefore_total {s : Side} {a b : P} (h : a ≠ b) (h1 : ¬ keyBefore s a b) :
    keyBefore s b a := by
  cases s
  · exact lt_of_le_of_ne (not_lt.mp h1) h
  · exact lt_of_le_of_ne (not_lt.mp h1) (Ne.symm h)

theorem keyEquiv_iff_eq (a b : P) : keyEquiv a b ↔ a = b := by
  constructor
  · rintro ⟨h1, h2⟩
    exact le_antisymm (not_lt.mp h2) (not_lt.mp h1)
  · rintro rfl
    exact ⟨lt_irrefl _, lt_irrefl _⟩

theorem mapFind_nil (p : P) : mapFind ([] : Book P) p = none := rfl

/-- With linearly ordered keys a lookup compares keys by equality. -/
theorem mapFind_cons (k : P) (level : PriceLevel P) (rest : Book P) (p : P) :
    mapFind ((k, level) :: rest) p = if k = p then some level else mapFind rest p := by
  by_cases h : k = p
  · rw [mapFind, if_pos ((keyEquiv_iff_eq k p).mpr h), if_pos h]
  · rw [mapFind, if_neg (fun e => h ((keyEquiv_iff_eq k p).mp e)), if_neg h]

theorem mapSubscript_nil (s : Side) (p : P) : mapSubscript s ([] : Book P) p = [(p, [])] := rfl

theorem mapSubscript_cons (s : Side) (k : P) (level : PriceLevel P) (rest : Book P) (p : P) :
    mapSubscript s ((k, level) :: rest) p =
      if k = p then (k, level) :: rest
      else if keyBefore s p k then (p, []) :: (k, level) :: rest
      else (k, level) :: mapSubscript s rest p := by
  by_cases h : k = p
  · rw [mapSubscript, if_pos ((keyEquiv_iff_eq k p).mpr h), if_pos h]
  · rw [mapSubscript, if_neg (fun e => h ((keyEquiv_iff_eq k p).mp e)), if_neg h]

theorem mapAssign_nil (p : P) (new : PriceLevel P) : mapAssign ([] : Book P) p new = [] := rfl

theorem mapAssign_cons (k : P) (level : PriceLevel P) (rest : Book P) (p : P)
    (new : PriceLevel P) :
    mapAssign ((k, level) :: rest) p new =
      if k = p then (k, new) :: rest else (k, level) :: mapAssign rest p new := by
  by_cases h : k = p
  · rw [mapAssign, if_pos ((keyEquiv_iff_eq k p).mpr h), if_pos h]
  · rw [mapAssign, if_neg (fun e => h ((keyEquiv_iff_eq k p).mp e)), if_neg h]

theorem mapErase_nil (p : P) : mapErase ([] : Book P) p = [] := rfl

theorem mapErase_cons (k : P) (level : PriceLevel P) (rest : Book P) (p : P) :
    mapErase ((k, level) :: rest) p = if k = p then rest else (k, level) :: mapErase rest p := by
  by_cases h : k = p
  · rw [mapErase, if_pos ((keyEquiv_iff_eq k p).mpr h), if_pos h]
  · rw [mapErase, if_neg (fun e => h ((keyEquiv_iff_eq k p).mp e)), if_neg h]

theorem BookSorted.tail {s : Side} {kl : P × PriceLevel P} {rest : Book P}
    (h : BookSorted s (kl :: rest)) : BookSorted s rest :=
  (List.pairwise_cons.mp h).2

theorem BookSorted.head {s : Side} {kl : P × PriceLevel P} {rest : Book P}
    (h : BookSorted s (kl :: rest)) : ∀ x ∈ rest, keyBefore s kl.1 x.1 :=
  (List.pairwise_cons.mp h).1

theorem mapFind_mem {book : Book P} {p : P} {level : PriceLevel P}
    (h : mapFind book p = some level) : (p, level) ∈ book := by
  induction book with
  | nil => simp [mapFind_nil, mapFind_cons] at h
  | cons kl rest ih =>
    obtain ⟨k, l⟩ := kl
    by_cases hk : k = p
    · subst hk
      simp [mapFind_nil, mapFind_cons] at h
      simp [h]
    · simp [mapFind_nil, mapFind_cons, hk] at h
      exact List.mem_cons_of_mem _ (ih h)

theorem mapFind_of_mem {s : Side} {book : Book P} (hs : BookSorted s book) {p : P}
    {level : PriceLevel P} (h : (p, level) ∈ book) : mapFind book p = some level := by
  induction book with
  | nil => simp at h
  | cons kl rest ih =>
    obtain ⟨k, l⟩ := kl
    rcases List.mem_cons.mp h with h1 | h1
    · cases h1
      simp [mapFind_nil, mapFind_cons]
    · have hne : k ≠ p := keyBefore_ne (hs.head _ h1)
      simp [mapFind_nil, mapFind_cons, hne, ih hs.tail h1]

theorem mapFind_eq_none_of_before {s : Side} {book : Book P} {p : P}
    (h : ∀ x ∈ book, keyBefore s p x.1) : mapFind book p = none := by
  induction book with
  | nil => rfl
  | cons kl rest ih =>
    obtain ⟨k, l⟩ := kl
    have hne : k ≠ p := (keyBefore_ne (h (k, l) (List.mem_cons_self _ _))).symm
    simp [mapFind_nil, mapFind_cons, hne]
    exact ih (fun x hx => h x (List.mem_cons_of_mem _ hx))

theorem mapFind_mapAssign (book : Book P) (p q : P) (new : PriceLevel P) :
    mapFind (mapAssign book p new) q =
      if q = p then (mapFind book p).map (fun _ => new) else mapFind book q := by
  induction book with
  | nil => simp [mapAssign_nil, mapAssign_cons, mapFind_nil, mapFind_cons]
  | cons kl rest ih =>
    obtain ⟨k, l⟩ := kl
    by_cases hk : k = p
    · subst hk
      by_cases hq : q = k
      · subst hq
        simp [mapAssign_nil, mapAssign_cons, mapFind_nil, mapFind_cons]
      · have hq' : ¬ k = q := fun x => hq x.symm
        simp [mapAssign_nil, mapAssign_cons, mapFind_nil, mapFind_cons, hq, hq']
    · by_cases hq : k = q
      · subst hq
        have hk' : ¬ k = p := hk
        simp [mapAssign_nil, mapAssign_cons, mapFind_nil, mapFind_cons, hk']
      · simp [mapAssign_nil, mapAssign_cons, mapFind_nil, mapFind_cons, hk, hq, ih]

theorem mapFind_mapErase {s : Side} {book : Book P} (hs : BookSorted s book) (p q : P) :
    mapFind (mapErase book p) q = if q = p then none else mapFind book q := by
  induction book with
  | nil => simp [mapErase_nil, mapErase_cons, mapFind_nil, mapFind_cons]
  | cons kl rest ih =>
    obtain ⟨k, l⟩ := kl
    by_cases hk : k = p
    · subst hk
      by_cases hq : q = k
      · subst hq
        simp [mapErase_nil, mapErase_cons]
        exact mapFind_eq_none_of_before hs.head
      · have hq' : ¬ k = q := fun x => hq x.symm
        simp [mapErase_nil, mapErase_cons, mapFind_nil, mapFind_cons, hq, hq']
    · by_cases hq : k = q
      · subst hq
        simp [mapErase_nil, mapErase_cons, mapFind_nil, mapFind_cons, hk]
      · simp [mapErase_nil, mapErase_cons, mapFind_nil, mapFind_cons, hk, hq, ih hs.tail]

theorem mapFind_mapSubscript {s : Side} {book : Book P} (hs : BookSorted s book) (p q : P) :
    mapFind (mapSubscript s book p) q =
      if q = p then some ((mapFind book p).getD []) else mapFind book q := by
  induction book with
  | nil =>
    by_cases hq : q = p
    · simp [mapSubscript_nil, mapSubscript_cons, mapFind_nil, mapFind_cons, hq]
    · have hq' : ¬ p = q := fun x => hq x.symm
      simp [mapSubscript_nil, mapSubscript_cons, mapFind_nil, mapFind_cons, hq, hq']
  | cons kl rest ih =>
    obtain ⟨k, l⟩ := kl
    by_cases hk : k = p
    · subst hk
      by_cases hq : q = k
      · subst hq
        simp [mapSubscript_nil, mapSubscript_cons, mapFind_nil, mapFind_cons]
      · simp [mapSubscript_nil, mapSubscript_cons, mapFind_nil, mapFind_cons, hq]
    · by_cases hb : keyBefore s p k
      · by_cases hq : q = p
        · subst hq
          have hn : mapFind rest q = none :=
            mapFind_eq_none_of_before (fun x hx => keyBefore_trans hb (hs.head x hx))
          simp [mapSubscript_nil, mapSubscript_cons, mapFind_nil, mapFind_cons, hk, hb, hn]
        · have hq' : ¬ p = q := fun x => hq x.symm
          simp [mapSubscript_nil, mapSubscript_cons, mapFind_nil, mapFind_cons, hk, hb, hq, hq']
      · by_cases hq : k = q
        · subst hq
          simp [mapSubscript_nil, mapSubscript_cons, mapFind_nil, mapFind_cons, hk, hb]
        · simp [mapSubscript_nil, mapSubscript_cons, mapFind_nil, mapFind_cons, hk, hb, hq, ih hs.tail]

theorem mapSubscript_keys (s : Side) (book : Book P) (p : P) (x : P × PriceLevel P)
    (hx : x ∈ mapSubscript s book p) : x ∈ book ∨ x.1 = p := by
  induction book with
  | nil =>
    simp [mapSubscript_nil, mapSubscript_cons] at hx
    right
    simp [hx]
  | cons kl rest ih =>
    obtain ⟨k, l⟩ := kl
    by_cases hk : k = p
    · simp [mapSubscript_nil, mapSubscript_cons, hk] at hx
      left
      simpa [hk] using hx
    · by_cases hb : keyBefore s p k
      · simp [mapSubscript_nil, mapSubscript_cons, hk, hb] at hx
        rcases hx with h | h | h
        · right
          simp [h]
        · left
          simp [h]
        · left
          exact List.mem_cons_of_mem _ h
      · simp [mapSubscript_nil, mapSubscript_cons, hk, hb] at hx
        rcases hx with h | h
        · left
          simp [h]
        · rcases ih h with h' | h'
          · left
            exact List.mem_cons_of_mem _ h'
          · right
            exact h'

theorem BookSorted.mapSubscript {s : Side} {book : Book P} (hs : BookSorted s book) (p : P) :
    BookSorted s (mapSubscript s book p) := by
  induction book with
  | nil => simp [mapSubscript_nil, mapSubscript_cons, BookSorted]
  | cons kl rest ih =>
    obtain ⟨k, l⟩ := kl
    by_cases hk : k = p
    · simpa [mapSubscript_nil, mapSubscript_cons, hk] using hs
    · by_cases hb : keyBefore s p k
      · simp only [mapSubscript_nil, mapSubscript_cons, hk, hb, if_true, if_false]
        refine List.pairwise_cons.mpr ⟨?_, hs⟩
        intro x hx
        rcases List.mem_cons.mp hx with h | h
        · subst h
          exact hb
        · exact keyBefore_trans hb (hs.head x h)
      · simp only [mapSubscript_nil, mapSubscript_cons, hk, hb, if_false]
        refine List.pairwise_cons.mpr ⟨?_, ih hs.tail⟩
        intro x hx
        rcases mapSubscript_keys s rest p x hx with h | h
        · exact hs.head x h
        · rw [h]
          exact keyBefore_total (Ne.symm hk) hb

theorem mapAssign_mem {book : Book P} {p : P} {new : PriceLevel P} {x : P × PriceLevel P}
    (hx : x ∈ mapAssign book p new) : x ∈ book ∨ x = (p, new) := by
  induction book with
  | nil => simp [mapAssign_nil, mapAssign_cons] at hx
  | cons kl rest ih =>
    obtain ⟨k, l⟩ := kl
    by_cases hk : k = p
    · simp [mapAssign_nil, mapAssign_cons, hk] at hx
      rcases hx with h | h
      · right
        exact h
      · left
        exact List.mem_cons_of_mem _ h
    · simp [mapAssign_nil, mapAssign_cons, hk] at hx
      rcases hx with h | h
      · left
        simp [h]
      · rcases ih h with h' | h'
        · left
          exact List.mem_cons_of_mem _ h'
        · right
          exact h'

theorem mapAssign_keys (book : Book P) (p : P) (new : PriceLevel P) :
    (mapAssign book p new).map Prod.fst = book.map Prod.fst := by
  induction book with
  | nil => rfl
  | cons kl rest ih =>
    obtain ⟨k, l⟩ := kl
    by_cases hk : k = p
    · simp [mapAssign_nil, mapAssign_cons, hk]
    · simp [mapAssign_nil, mapAssign_cons, hk, ih]

theorem bookSorted_iff_keys (s : Side) (book : Book P) :
    BookSorted s book ↔ (book.map Prod.fst).Pairwise (keyBefore s) := by
  simp [BookSorted, List.pairwise_map]

theorem BookSorted.mapAssign {s : Side} {book : Book P} (hs : BookSorted s book) (p : P)
    (new : PriceLevel P) : BookSorted s (mapAssign book p new) := by
  rw [bookSorted_iff_keys, mapAssign_keys]
  exact (bookSorted_iff_keys s book).mp hs

theorem mapErase_sublist (book : Book P) (p : P) : (mapErase book p).Sublist book := by
  induction book with
  | nil => simp [mapErase_nil, mapErase_cons]
  | cons kl rest ih =>
    obtain ⟨k, l⟩ := kl
    by_cases hk : k = p
    · simp [mapErase_nil, mapErase_cons, hk]
    · simp [mapErase_nil, mapErase_cons, hk, ih]

theorem BookSorted.mapErase {s : Side} {book : Book P} (hs : BookSorted s book) (p : P) :
    BookSorted s (mapErase book p) :=
  List.Pairwise.sublist (mapErase_sublist book p) hs

/-- In a sorted book, membership of a `(key, level)` pair is what `find` returns. -/
theorem mem_iff_mapFind {s : Side} {book : Book P} (hs : BookSorted s book) (p : P)
    (level : PriceLevel P) : (p, level) ∈ book ↔ mapFind book p = some level :=
  ⟨mapFind_of_mem hs, mapFind_mem⟩

end MapLemmas

/-! ## The matching loops -/

section MatchLemmas

variable {P : Type} [LinearOrder P] [Zero P]

/-- The incoming order has nothing left when the head order of the level keeps
a positive quantity: the inner loop of `matchOrder` then ends. -/
theorem matchLevel_exit (incoming top : Nat) (h : top - min incoming top ≠ 0) :
    incoming - min incoming top = 0 := by
  omega

theorem matchLevel_nil (bp : P) (inc : Order P) (oi : OrderIndex P) (T : List (Trade P)) :
    matchLevel bp inc [] oi T = ⟨inc, [], oi, T⟩ := rfl

theorem matchLevel_cons (bp : P) (inc top : Order P) (rest : PriceLevel P) (oi : OrderIndex P)
    (T : List (Trade P)) :
    matchLevel bp inc (top :: rest) oi T =
      if inc.quantity > 0 then
        if top.quantity - min inc.quantity top.quantity = 0 then
          matchLevel bp { inc with quantity := inc.quantity - min inc.quantity top.quantity } rest
            (reindexFrom rest 0 (indexErase oi top.id))
            (T ++ [⟨inc.id, top.id, bp, min inc.quantity top.quantity⟩])
        else
          ⟨{ inc with quantity := inc.quantity - min inc.quantity top.quantity },
            { top with quantity := top.quantity - min inc.quantity top.quantity } :: rest, oi,
            T ++ [⟨inc.id, top.id, bp, min inc.quantity top.quantity⟩]⟩
      else ⟨inc, top :: rest, oi, T⟩ := rfl

/-- The trades of one level: appended to the vector, taken by the incoming
order, and made by the orders of the level from its front, at the level key. -/
theorem matchLevel_trades (bp : P) (L : PriceLevel P) :
    ∀ (inc : Order P) (oi : OrderIndex P) (T : List (Trade P)),
      ∃ T', (matchLevel bp inc L oi T).trades = T ++ T' ∧
        (∀ t ∈ T', t.taker = inc.id) ∧
        T'.map (fun t => (t.maker, t.price)) <+: L.map (fun o => (o.id, bp)) ∧
        ((matchLevel bp inc L oi T).level = [] →
          T'.map (fun t => (t.maker, t.price)) = L.map (fun o => (o.id, bp))) := by
  induction L with
  | nil =>
    intro inc oi T
    exact ⟨[], by simp [matchLevel_nil]⟩
  | cons top rest ih =>
    intro inc oi T
    rw [matchLevel_cons]
    by_cases hq : inc.quantity > 0
    · by_cases hz : top.quantity - min inc.quantity top.quantity = 0
      · simp only [hq, hz, if_true]
        obtain ⟨T', h1, h2, h3, h4⟩ := ih { inc with quantity := inc.quantity - min inc.quantity top.quantity }
          (reindexFrom rest 0 (indexErase oi top.id))
          (T ++ [⟨inc.id, top.id, bp, min inc.quantity top.quantity⟩])
        refine ⟨⟨inc.id, top.id, bp, min inc.quantity top.quantity⟩ :: T', ?_, ?_, ?_, ?_⟩
        · rw [h1]; simp
        · intro t ht
          rcases List.mem_cons.mp ht with h | h
          · rw [h]
          · exact h2 t h
        · simpa [List.prefix_cons_inj] using h3
        · intro hl
          simpa using h4 hl
      · simp only [hq, hz, if_true, if_false]
        refine ⟨[⟨inc.id, top.id, bp, min inc.quantity top.quantity⟩], rfl, ?_, ?_, ?_⟩
        · simp
        · simp [List.prefix_cons_inj]
        · simp
    · simp only [hq, if_false]
      exact ⟨[], by simp⟩

theorem matchLevel_incoming (bp : P) (L : PriceLevel P) :
    ∀ (inc : Order P) (oi : OrderIndex P) (T : List (Trade P)),
      (matchLevel bp inc L oi T).incoming.id = inc.id ∧
      (matchLevel bp inc L oi T).incoming.side = inc.side ∧
      (matchLevel bp inc L oi T).incoming.price = inc.price := by
  induction L with
  | nil =>
    intro inc oi T
    simp [matchLevel_nil]
  | cons top rest ih =>
    intro inc oi T
    rw [matchLevel_cons]
    by_cases hq : inc.quantity > 0
    · by_cases hz : top.quantity - min inc.quantity top.quantity = 0
      · simp only [hq, hz, if_true]
        exact ih _ _ _
      · simp [hq, hz]
    · simp [hq]

/-- What is left of a level is a tail of it, up to the quantity of its head. -/
theorem matchLevel_level_suffix (bp : P) (L : PriceLevel P) :
    ∀ (inc : Order P) (oi : OrderIndex P) (T : List (Trade P)),
      (matchLevel bp inc L oi T).level.map Order.key <:+ L.map Order.key := by
  induction L with
  | nil =>
    intro inc oi T
    simp [matchLevel_nil]
  | cons top rest ih =>
    intro inc oi T
    rw [matchLevel_cons]
    by_cases hq : inc.quantity > 0
    · by_cases hz : top.quantity - min inc.quantity top.quantity = 0
      · simp only [hq, hz, if_true]
        exact List.IsSuffix.trans (ih _ _ _) (by simp [List.suffix_cons])
      · simp only [hq, hz, if_true, if_false]
        simp [Order.key]
    · simp only [hq, if_false]
      simp

theorem matchLevel_rests (s : Side) (bp : P) (L : PriceLevel P) :
    ∀ (inc : Order P) (oi : OrderIndex P) (T : List (Trade P)),
      (∀ o ∈ L, Rests s bp o) → ∀ o ∈ (matchLevel bp inc L oi T).level, Rests s bp o := by
  induction L with
  | nil =>
    intro inc oi T _
    simp [matchLevel_nil]
  | cons top rest ih =>
    intro inc oi T hL
    rw [matchLevel_cons]
    by_cases hq : inc.quantity > 0
    · by_cases hz : top.quantity - min inc.quantity top.quantity = 0
      · simp only [hq, hz, if_true]
        exact ih _ _ _ (fun o ho => hL o (List.mem_cons_of_mem _ ho))
      · simp only [hq, hz, if_true, if_false]
        intro o ho
        rcases List.mem_cons.mp ho with h | h
        · subst h
          have ht := hL top (List.mem_cons_self _ _)
          exact ⟨ht.1, ht.2.1, Nat.pos_of_ne_zero hz⟩
        · exact hL o (List.mem_cons_of_mem _ h)
    · simp only [hq, if_false]
      exact hL

theorem matchLoop_nil (crosses : Order P → P → Bool) (inc : Order P) (oi : OrderIndex P)
    (T : List (Trade P)) : matchLoop crosses inc [] oi T = ⟨inc, [], oi, T⟩ := rfl

theorem matchLoop_cons (crosses : Order P → P → Bool) (inc : Order P) (bp : P)
    (L : PriceLevel P) (rest : Book P) (oi : OrderIndex P) (T : List (Trade P)) :
    matchLoop crosses inc ((bp, L) :: rest) oi T =
      if inc.quantity > 0 then
        if !(crosses inc bp) then ⟨inc, (bp, L) :: rest, oi, T⟩
        else if (matchLevel bp inc L oi T).level.isEmpty then
          matchLoop crosses (matchLevel bp inc L oi T).incoming rest
            (matchLevel bp inc L oi T).orderIndex (matchLevel bp inc L oi T).trades
        else
          ⟨(matchLevel bp inc L oi T).incoming, (bp, (matchLevel bp inc L oi T).level) :: rest,
            (matchLevel bp inc L oi T).orderIndex, (matchLevel bp inc L oi T).trades⟩
      else ⟨inc, (bp, L) :: rest, oi, T⟩ := rfl

/-- An induction principle for `matchLoop`: a property of its result that holds
when the loop stops at the first level (with or without visiting it) and is
carried over an erased first level holds of every result. -/
theorem matchLoop_cases (crosses : Order P → P → Bool) (inc : Order P) (bp : P)
    (L : PriceLevel P) (rest : Book P) (oi : OrderIndex P) (T : List (Trade P)) :
    matchLoop crosses inc ((bp, L) :: rest) oi T = ⟨inc, (bp, L) :: rest, oi, T⟩ ∨
    ((matchLevel bp inc L oi T).level = [] ∧
      matchLoop crosses inc ((bp, L) :: rest) oi T =
        matchLoop crosses (matchLevel bp inc L oi T).incoming rest
          (matchLevel bp inc L oi T).orderIndex (matchLevel bp inc L oi T).trades) ∨
    ((matchLevel bp inc L oi T).level ≠ [] ∧
      matchLoop crosses inc ((bp, L) :: rest) oi T =
        ⟨(matchLevel bp inc L oi T).incoming, (bp, (matchLevel bp inc L oi T).level) :: rest,
          (matchLevel bp inc L oi T).orderIndex, (matchLevel bp inc L oi T).trades⟩) := by
  rw [matchLoop_cons]
  by_cases hq : inc.quantity > 0
  · by_cases hc : crosses inc bp = true
    · by_cases he : (matchLevel bp inc L oi T).level = []
      · right; left
        simp [hq, hc, he]
      · right; right
        simp [hq, hc, he]
    · left
      simp [hq, hc]
  · left
    simp [hq]

theorem matchLoop_wf (crosses : Order P → P → Bool) (s : Side) (B : Book P) :
    ∀ (inc : Order P) (oi : OrderIndex P) (T : List (Trade P)),
      BookWF s B → BookWF s (matchLoop crosses inc B oi T).book := by
  induction B with
  | nil =>
    intro inc oi T h
    simpa [matchLoop_nil] using h
  | cons kl rest ih =>
    obtain ⟨bp, L⟩ := kl
    intro inc oi T h
    rcases matchLoop_cases crosses inc bp L rest oi T with h1 | ⟨_, h1⟩ | ⟨hne, h1⟩
    · rw [h1]; exact h
    · rw [h1]
      exact ih _ _ _ ⟨h.1.tail, fun kl hkl => h.2 kl (List.mem_cons_of_mem _ hkl)⟩
    · rw [h1]
      refine ⟨?_, ?_⟩
      · exact List.pairwise_cons.mpr ⟨h.1.head, h.1.tail⟩
      · intro kl hkl
        rcases List.mem_cons.mp hkl with h2 | h2
        · subst h2
          exact ⟨hne, matchLevel_rests s bp L inc oi T (h.2 (bp, L) (List.mem_cons_self _ _)).2⟩
        · exact h.2 kl (List.mem_cons_of_mem _ h2)

theorem matchLoop_incoming (crosses : Order P → P → Bool) (B : Book P) :
    ∀ (inc : Order P) (oi : OrderIndex P) (T : List (Trade P)),
      (matchLoop crosses inc B oi T).incoming.id = inc.id := by
  induction B with
  | nil =>
    intro inc oi T
    simp [matchLoop_nil]
  | cons kl rest ih =>
    obtain ⟨bp, L⟩ := kl
    intro inc oi T
    rcases matchLoop_cases crosses inc bp L rest oi T with h1 | ⟨_, h1⟩ | ⟨_, h1⟩
    · rw [h1]
    · rw [h1, ih]
      exact (matchLevel_incoming bp L inc oi T).1
    · rw [h1]
      exact (matchLevel_incoming bp L inc oi T).1

/-- The trades of one `matchOrder` call: appended to the vector, taken by the
incoming order, and made by the resting orders of the book in matching order
(best level first, oldest first), each at the key of its level. -/
theorem matchLoop_trades (crosses : Order P → P → Bool) (B : Book P) :
    ∀ (inc : Order P) (oi : OrderIndex P) (T : List (Trade P)),
      ∃ T', (matchLoop crosses inc B oi T).trades = T ++ T' ∧
        (∀ t ∈ T', t.taker = inc.id) ∧
        T'.map (fun t => (t.maker, t.price)) <+: bookMakers B := by
  induction B with
  | nil =>
    intro inc oi T
    exact ⟨[], by simp [matchLoop_nil, bookMakers]⟩
  | cons kl rest ih =>
    obtain ⟨bp, L⟩ := kl
    intro inc oi T
    obtain ⟨T1, e1, k1, p1, f1⟩ := matchLevel_trades bp L inc oi T
    rcases matchLoop_cases crosses inc bp L rest oi T with h1 | ⟨he, h1⟩ | ⟨_, h1⟩
    · rw [h1]
      exact ⟨[], by simp⟩
    · rw [h1]
      obtain ⟨T2, e2, k2, p2⟩ := ih (matchLevel bp inc L oi T).incoming
        (matchLevel bp inc L oi T).orderIndex (matchLevel bp inc L oi T).trades
      refine ⟨T1 ++ T2, ?_, ?_, ?_⟩
      · rw [e2, e1, List.append_assoc]
      · intro t ht
        rcases List.mem_append.mp ht with h | h
        · exact k1 t h
        · rw [k2 t h]
          exact (matchLevel_incoming bp L inc oi T).1
      · simp only [bookMakers, List.map_cons, List.flatten_cons, List.map_append]
        rw [f1 he]
        exact (List.prefix_append_right_inj _).mpr p2
    · rw [h1]
      refine ⟨T1, e1, k1, ?_⟩
      simp only [bookMakers, List.map_cons, List.flatten_cons]
      exact List.IsPrefix.trans p1 (List.prefix_append _ _)

end MatchLemmas

/-! ## The public member functions -/

section EngineLemmas

variable {P : Type} [LinearOrder P] [Zero P]

@[simp] theorem bookOf_setBook_same (e : MatchingEngine P) (s : Side) (b : Book P) :
    bookOf (setBook e s b) s = b := by
  cases s <;> rfl

@[simp] theorem bookOf_setBook_opposite (e : MatchingEngine P) (s : Side) (b : Book P) :
    bookOf (setBook e s.opposite b) s = bookOf e s := by
  cases s <;> rfl

@[simp] theorem bookOf_setBook_opposite' (e : MatchingEngine P) (s : Side) (b : Book P) :
    bookOf (setBook e s b) s.opposite = bookOf e s.opposite := by
  cases s <;> rfl

@[simp] theorem setBook_orderIndex (e : MatchingEngine P) (s : Side) (b : Book P) :
    (setBook e s b).orderIndex = e.orderIndex := by
  cases s <;> rfl

theorem Side.opposite_ne (s : Side) : s.opposite ≠ s := by
  cases s <;> simp [Side.opposite]

theorem Side.eq_or_opposite (s t : Side) : t = s ∨ t = s.opposite := by
  cases s <;> cases t <;> simp [Side.opposite]

/-- `addOrder`, with the two sides treated alike. -/
theorem addOrder_eq (e : MatchingEngine P) (o : Order P) :
    addOrder e o =
      if o.quantity > 0 then
        ({ setBook (setBook e o.side.opposite (addOrderMatch e o).book) o.side
              (pushBack o.side (bookOf e o.side) o) with
            orderIndex := indexAssign (addOrderMatch e o).orderIndex o.id
              ⟨o.side, o.price,
                ((mapFind (mapSubscript o.side (bookOf e o.side) o.price) o.price).getD []
                  ++ [o]).length - 1⟩ },
          (addOrderMatch e o).trades)
      else
        ({ setBook e o.side.opposite (addOrderMatch e o).book with
            orderIndex := (addOrderMatch e o).orderIndex },
          (addOrderMatch e o).trades) := by
  obtain ⟨id, side, price, qty, ts⟩ := o
  cases side <;> rfl

/-- `cancelOrder`, with the two sides treated alike. -/
theorem cancelOrder_eq (e : MatchingEngine P) (id : OrderId) :
    cancelOrder e id =
      match indexFind e.orderIndex id with
      | none => (e, false)
      | some entry =>
        ({ setBook e entry.side (cancelInBook (bookOf e entry.side) e.orderIndex entry).1 with
            orderIndex :=
              indexErase (cancelInBook (bookOf e entry.side) e.orderIndex entry).2 id },
          true) := by
  unfold cancelOrder
  cases h : indexFind e.orderIndex id with
  | none => rfl
  | some entry =>
    obtain ⟨side, price, index⟩ := entry
    cases side <;> simp [setBook, bookOf]

theorem BookSorted.pushBack {s : Side} {book : Book P} (hs : BookSorted s book) (o : Order P) :
    BookSorted s (pushBack s book o) :=
  (hs.mapSubscript o.price).mapAssign _ _

/-- The level found under each key after step 2 of `addOrder`. -/
theorem mapFind_pushBack {s : Side} {book : Book P} (hs : BookSorted s book) (o : Order P)
    (q : P) :
    mapFind (pushBack s book o) q =
      if q = o.price then some ((mapFind book o.price).getD [] ++ [o]) else mapFind book q := by
  unfold Exchange.pushBack
  rw [mapFind_mapAssign, mapFind_mapSubscript hs, mapFind_mapSubscript hs]
  by_cases hq : q = o.price
  · simp [hq]
  · simp [hq]

theorem bookWF_iff {s : Side} {book : Book P} (hs : BookSorted s book) :
    BookWF s book ↔
      ∀ k L, mapFind book k = some L → L ≠ [] ∧ ∀ o ∈ L, Rests s k o := by
  constructor
  · intro h k L hf
    exact h.2 (k, L) (mapFind_mem hf)
  · intro h
    refine ⟨hs, ?_⟩
    rintro ⟨k, L⟩ hkl
    exact h k L (mapFind_of_mem hs hkl)

theorem pushBack_wf {s : Side} {book : Book P} (h : BookWF s book) (o : Order P)
    (ho : Rests s o.price o) : BookWF s (pushBack s book o) := by
  rw [bookWF_iff (h.1.pushBack o)]
  intro k L hf
  rw [mapFind_pushBack h.1] at hf
  by_cases hk : k = o.price
  · subst hk
    simp only [if_true, Option.some.injEq] at hf
    subst hf
    refine ⟨by simp, ?_⟩
    intro x hx
    rcases List.mem_append.mp hx with hx | hx
    · cases hL : mapFind book o.price with
      | none => simp [hL] at hx
      | some L0 =>
        simp [hL] at hx
        exact ((bookWF_iff h.1).mp h _ _ hL).2 x hx
    · simp at hx
      subst hx
      exact ho
  · simp only [hk, if_false] at hf
    exact (bookWF_iff h.1).mp h k L hf

theorem cancelInBook_none (book : Book P) (oi : OrderIndex P) (entry : BookEntry P)
    (hL : mapFind book entry.price = none) : cancelInBook book oi entry = (book, oi) := by
  unfold cancelInBook
  simp [hL]

/-- The book after the book part of `cancelOrder`. -/
theorem cancelInBook_fst (book : Book P) (oi : OrderIndex P) (entry : BookEntry P)
    (L : PriceLevel P) (hL : mapFind book entry.price = some L) :
    (cancelInBook book oi entry).1 =
      if (L.eraseIdx entry.index).isEmpty then mapErase book entry.price
      else mapAssign book entry.price (L.eraseIdx entry.index) := by
  unfold cancelInBook
  simp only [hL]
  by_cases hi : entry.index < L.length
  · simp only [hi, if_true]
    by_cases he : (L.eraseIdx entry.index).isEmpty <;> simp [he]
  · have : L.eraseIdx entry.index = L := List.eraseIdx_of_length_le (not_lt.mp hi)
    simp only [hi, if_false, this]
    by_cases he : L.isEmpty <;> simp [he]

/-- The index after the book part of `cancelOrder`. -/
theorem cancelInBook_snd (book : Book P) (oi : OrderIndex P) (entry : BookEntry P)
    (L : PriceLevel P) (hL : mapFind book entry.price = some L) :
    (cancelInBook book oi entry).2 =
      if entry.index < L.length then reindexFrom (L.eraseIdx entry.index) entry.index oi
      else oi := by
  unfold cancelInBook
  simp only [hL]
  by_cases hi : entry.index < L.length
  · simp only [hi, if_true]
    by_cases he : (L.eraseIdx entry.index).isEmpty <;> simp [he]
  · simp only [hi, if_false]
    by_cases he : L.isEmpty <;> simp [he]

/-- The level found under each key after the book part of `cancelOrder`. -/
theorem mapFind_cancelInBook {s : Side} {book : Book P} (hs : BookSorted s book)
    (oi : OrderIndex P) (entry : BookEntry P) (L : PriceLevel P)
    (hL : mapFind book entry.price = some L) (q : P) :
    mapFind (cancelInBook book oi entry).1 q =
      if q = entry.price then
        (if (L.eraseIdx entry.index).isEmpty then none else some (L.eraseIdx entry.index))
      else mapFind book q := by
  rw [cancelInBook_fst book oi entry L hL]
  by_cases he : (L.eraseIdx entry.index).isEmpty
  · simp only [he, if_true]
    rw [mapFind_mapErase hs]
  · simp only [he]
    rw [if_neg (by simp), mapFind_mapAssign]
    simp [hL]

theorem BookSorted.cancelInBook {s : Side} {book : Book P} (hs : BookSorted s book)
    (oi : OrderIndex P) (entry : BookEntry P) :
    BookSorted s (cancelInBook book oi entry).1 := by
  cases hL : mapFind book entry.price with
  | none => rw [cancelInBook_none book oi entry hL]; exact hs
  | some L =>
    rw [cancelInBook_fst book oi entry L hL]
    split
    · exact hs.mapErase _
    · exact hs.mapAssign _ _

theorem cancelInBook_wf {s : Side} {book : Book P} (h : BookWF s book)
    (oi : OrderIndex P) (entry : BookEntry P) :
    BookWF s (cancelInBook book oi entry).1 := by
  cases hL : mapFind book entry.price with
  | none => rw [cancelInBook_none book oi entry hL]; exact h
  | some L =>
    rw [bookWF_iff (h.1.cancelInBook oi entry)]
    intro k L' hf
    rw [mapFind_cancelInBook h.1 oi entry L hL] at hf
    by_cases hk : k = entry.price
    · subst hk
      simp only [if_true] at hf
      by_cases he : (L.eraseIdx entry.index).isEmpty
      · simp [he] at hf
      · simp only [he] at hf
        simp only [Bool.false_eq_true, if_false, Option.some.injEq] at hf
        subst hf
        refine ⟨by simpa using he, ?_⟩
        intro x hx
        exact ((bookWF_iff h.1).mp h _ _ hL).2 x (List.mem_of_mem_eraseIdx hx)
    · simp only [hk, if_false] at hf
      exact (bookWF_iff h.1).mp h k L' hf

@[simp] theorem bookOf_mk_orderIndex (e : MatchingEngine P) (oi : OrderIndex P) (s : Side) :
    bookOf ⟨e.bids, e.asks, oi⟩ s = bookOf e s := by
  cases s <;> rfl

theorem addOrder_wf (e : MatchingEngine P) (o : Order P) (h : EngineWF e) :
    EngineWF (addOrder e o).1 := by
  have hm : BookWF o.side.opposite (addOrderMatch e o).book :=
    matchLoop_wf _ _ _ _ _ _ (h o.side.opposite)
  intro s
  rw [addOrder_eq]
  by_cases hq : o.quantity > 0
  · simp only [hq, if_true]
    rcases Side.eq_or_opposite o.side s with hs | hs
    · subst hs
      simp only [bookOf_mk_orderIndex, bookOf_setBook_same]
      exact pushBack_wf (h o.side) o ⟨rfl, rfl, hq⟩
    · subst hs
      simp only [bookOf_mk_orderIndex, bookOf_setBook_opposite', bookOf_setBook_same]
      exact hm
  · simp only [hq, if_false]
    rcases Side.eq_or_opposite o.side s with hs | hs
    · subst hs
      simp only [bookOf_mk_orderIndex, bookOf_setBook_opposite]
      exact h o.side
    · subst hs
      simp only [bookOf_mk_orderIndex, bookOf_setBook_same]
      exact hm

theorem bookOf_setBook_ne (e : MatchingEngine P) {s t : Side} (b : Book P) (h : t ≠ s) :
    bookOf (setBook e s b) t = bookOf e t := by
  cases s <;> cases t <;> first | rfl | exact absurd rfl h

theorem cancelOrder_wf (e : MatchingEngine P) (id : OrderId) (h : EngineWF e) :
    EngineWF (cancelOrder e id).1 := by
  rw [cancelOrder_eq]
  cases hf : indexFind e.orderIndex id with
  | none => exact h
  | some entry =>
    intro s
    simp only [bookOf_mk_orderIndex]
    by_cases hs : s = entry.side
    · subst hs
      rw [bookOf_setBook_same]
      exact cancelInBook_wf (h _) _ _
    · rw [bookOf_setBook_ne e _ hs]
      exact h s

theorem empty_wf : EngineWF (MatchingEngine.empty : MatchingEngine P) := by
  intro s
  cases s <;> simp [MatchingEngine.empty, bookOf, BookWF, BookSorted]

theorem step_wf (e : MatchingEngine P) (op : Op P) (h : EngineWF e) : EngineWF (step e op) := by
  cases op with
  | add o => exact addOrder_wf e o h
  | cancel id => exact cancelOrder_wf e id h

theorem reach_snoc (ops : List (Op P)) (op : Op P) :
    reach (ops ++ [op]) = step (reach ops) op := by
  simp [reach, run, List.foldl_append]

/-- Both books are well formed in every reachable state. -/
theorem reach_wf (ops : List (Op P)) : EngineWF (reach ops) := by
  induction ops using List.reverseRecOn with
  | nil => exact empty_wf
  | append_singleton ops op ih =>
    rw [reach_snoc]
    exact step_wf _ _ ih

theorem mem_bookMakers {B : Book P} {x : OrderId × P} :
    x ∈ bookMakers B ↔ ∃ kl ∈ B, ∃ o ∈ kl.2, o.id = x.1 ∧ kl.1 = x.2 := by
  obtain ⟨a, b⟩ := x
  simp only [bookMakers, List.mem_flatten, List.mem_map]
  constructor
  · rintro ⟨l, ⟨kl, hkl, rfl⟩, hx⟩
    obtain ⟨o, ho, he⟩ := List.mem_map.mp hx
    simp only [Prod.mk.injEq] at he
    exact ⟨kl, hkl, o, ho, he.1, he.2⟩
  · rintro ⟨kl, hkl, o, ho, h1, h2⟩
    refine ⟨_, ⟨kl, hkl, rfl⟩, ?_⟩
    exact List.mem_map.mpr ⟨o, ho, by simp [h1, h2]⟩

theorem mem_bookOrders {B : Book P} {o : Order P} :
    o ∈ bookOrders B ↔ ∃ kl ∈ B, o ∈ kl.2 := by
  simp only [bookOrders, List.mem_flatten, List.mem_map]
  constructor
  · rintro ⟨l, ⟨kl, hkl, rfl⟩, ho⟩
    exact ⟨kl, hkl, ho⟩
  · rintro ⟨kl, hkl, ho⟩
    exact ⟨_, ⟨kl, hkl, rfl⟩, ho⟩

/-- The trades returned by `addOrder` are those of its `matchOrder` call, and
the book of the opposite side afterwards is the one `matchOrder` leaves. -/
theorem addOrder_trades (e : MatchingEngine P) (o : Order P) :
    (addOrder e o).2 = (addOrderMatch e o).trades := by
  rw [addOrder_eq]
  split <;> rfl

theorem addOrder_opposite_book (e : MatchingEngine P) (o : Order P) :
    bookOf (addOrder e o).1 o.side.opposite = (addOrderMatch e o).book := by
  rw [addOrder_eq]
  split
  · simp only [bookOf_mk_orderIndex, bookOf_setBook_opposite', bookOf_setBook_same]
  · simp only [bookOf_mk_orderIndex, bookOf_setBook_same]

end EngineLemmas

/-! ## The order index -/

section IndexInvariant

variable {P : Type} [LinearOrder P] [Zero P]

theorem indexFind_indexSetIndex (oi : OrderIndex P) (id id' : OrderId) (i : Nat) :
    indexFind (indexSetIndex oi id i) id' =
      if id' = id then
        some (match indexFind oi id with
          | some entry => { entry with index := i }
          | none => { side := Side.BUY, price := 0, index := i })
      else indexFind oi id' := by
  unfold indexSetIndex
  cases h : indexFind oi id with
  | none => simp only [indexFind_indexAssign]
  | some entry => simp only [indexFind_indexAssign]

/-- The re-indexing loop leaves the entries of other identifiers alone. -/
theorem reindexLoop_frame (L : List (Order P)) :
    ∀ (i : Nat) (oi : OrderIndex P) (id : OrderId), (∀ o ∈ L, o.id ≠ id) →
      indexFind (reindexLoop L i oi) id = indexFind oi id := by
  induction L with
  | nil =>
    intro i oi id _
    rfl
  | cons x rest ih =>
    intro i oi id h
    simp only [reindexLoop]
    rw [ih (i + 1) _ id (fun o ho => h o (List.mem_cons_of_mem _ ho)), indexFind_indexSetIndex]
    have : id ≠ x.id := fun e => h x (List.mem_cons_self _ _) e.symm
    simp [this]

/-- The re-indexing loop sets the position of each order it visits. -/
theorem reindexLoop_get (L : List (Order P)) :
    ∀ (i : Nat) (oi : OrderIndex P), (L.map (fun o => o.id)).Nodup →
      ∀ (j : Nat) (o : Order P) (entry : BookEntry P), L[j]? = some o →
        indexFind oi o.id = some entry →
        indexFind (reindexLoop L i oi) o.id = some { entry with index := i + j } := by
  induction L with
  | nil =>
    intro i oi _ j o entry hj
    simp at hj
  | cons x rest ih =>
    intro i oi hnd j o entry hj hf
    simp only [List.map_cons, List.nodup_cons] at hnd
    simp only [reindexLoop]
    cases j with
    | zero =>
      simp only [List.getElem?_cons_zero, Option.some.injEq] at hj
      subst hj
      rw [reindexLoop_frame rest _ _ x.id, indexFind_indexSetIndex]
      · simp [hf]
      · intro o ho he
        exact hnd.1 (List.mem_map.mpr ⟨o, ho, he⟩)
    | succ j =>
      simp only [List.getElem?_cons_succ] at hj
      have hne : o.id ≠ x.id := by
        intro he
        exact hnd.1 (List.mem_map.mpr ⟨o, List.getElem?_mem hj, he⟩)
      have h1 : indexFind (indexSetIndex oi x.id i) o.id = some entry := by
        rw [indexFind_indexSetIndex]
        simp [hne, hf]
      rw [ih (i + 1) _ hnd.2 j o entry hj h1]
      simp only [Option.some.injEq, BookEntry.mk.injEq, true_and]
      omega

theorem IdxLevelOK.nodup_ids {s : Side} {k : P} {L : PriceLevel P} {oi : OrderIndex P}
    (h : IdxLevelOK s k L oi) : (L.map (fun o => o.id)).Nodup := by
  rw [List.nodup_iff_getElem?_ne_getElem?]
  intro i j hij hj he
  simp only [List.length_map] at hj
  have hi : i < L.length := lt_trans hij hj
  simp only [List.getElem?_map, List.getElem?_eq_getElem hi, List.getElem?_eq_getElem hj,
    Option.map_some', Option.some.injEq] at he
  have h1 := h i L[i] (List.getElem?_eq_getElem hi)
  have h2 := h j L[j] (List.getElem?_eq_getElem hj)
  rw [he, h2] at h1
  simp only [Option.some.injEq, BookEntry.mk.injEq, true_and] at h1
  omega

theorem IdxLevelOK.tail_ne {s : Side} {k : P} {top : Order P} {rest : PriceLevel P}
    {oi : OrderIndex P} (h : IdxLevelOK s k (top :: rest) oi) :
    ∀ o ∈ rest, o.id ≠ top.id := by
  intro o ho he
  have hn := h.nodup_ids
  simp only [List.map_cons, List.nodup_cons] at hn
  exact hn.1 (List.mem_map.mpr ⟨o, ho, he⟩)

/-- After the head of a level is filled and the loop has re-indexed the rest,
the rest is indexed from position 0. -/
theorem IdxLevelOK.pop {s : Side} {k : P} {top : Order P} {rest : PriceLevel P}
    {oi : OrderIndex P} (h : IdxLevelOK s k (top :: rest) oi) :
    IdxLevelOK s k rest (reindexFrom rest 0 (indexErase oi top.id)) := by
  intro j o hj
  have hn := h.nodup_ids
  simp only [List.map_cons, List.nodup_cons] at hn
  have hne : o.id ≠ top.id := h.tail_ne o (List.getElem?_mem hj)
  have h1 : indexFind (indexErase oi top.id) o.id = some ⟨s, k, j + 1⟩ := by
    rw [indexFind_indexErase]
    simp only [hne, if_false]
    exact h (j + 1) o (by simpa using hj)
  have := reindexLoop_get rest 0 _ hn.2 j o _ hj h1
  simpa [reindexFrom] using this

/-- The index after the inner loop of `matchOrder`: what is left of the level is
indexed by position, identifiers outside the level keep their entries, and the
identifiers that left the level have none. -/
theorem matchLevel_index (s : Side) (bp : P) (L : PriceLevel P) :
    ∀ (inc : Order P) (oi : OrderIndex P) (T : List (Trade P)), IdxLevelOK s bp L oi →
      IdxLevelOK s bp (matchLevel bp inc L oi T).level (matchLevel bp inc L oi T).orderIndex ∧
      (∀ id, (∀ o ∈ L, o.id ≠ id) →
        indexFind (matchLevel bp inc L oi T).orderIndex id = indexFind oi id) ∧
      (∀ o ∈ L, (∀ x ∈ (matchLevel bp inc L oi T).level, x.id ≠ o.id) →
        indexFind (matchLevel bp inc L oi T).orderIndex o.id = none) := by
  induction L with
  | nil =>
    intro inc oi T h
    simp [matchLevel_nil, h]
  | cons top rest ih =>
    intro inc oi T h
    rw [matchLevel_cons]
    by_cases hq : inc.quantity > 0
    · by_cases hz : top.quantity - min inc.quantity top.quantity = 0
      · simp only [hq, hz, if_true]
        obtain ⟨ha, hb, hc⟩ := ih { inc with quantity := inc.quantity - min inc.quantity top.quantity }
          (reindexFrom rest 0 (indexErase oi top.id))
          (T ++ [⟨inc.id, top.id, bp, min inc.quantity top.quantity⟩]) h.pop
        have hframe : ∀ id, (∀ o ∈ rest, o.id ≠ id) →
            indexFind (reindexFrom rest 0 (indexErase oi top.id)) id =
              indexFind (indexErase oi top.id) id := by
          intro id hid
          simpa [reindexFrom] using reindexLoop_frame rest 0 (indexErase oi top.id) id hid
        refine ⟨ha, ?_, ?_⟩
        · intro id hid
          have hr : ∀ o ∈ rest, o.id ≠ id := fun o ho => hid o (List.mem_cons_of_mem _ ho)
          have ht : id ≠ top.id := fun e => hid top (List.mem_cons_self _ _) e.symm
          rw [hb id hr, hframe id hr, indexFind_indexErase]
          simp [ht]
        · intro o ho hx
          rcases List.mem_cons.mp ho with h1 | h1
          · subst h1
            rw [hb o.id h.tail_ne, hframe o.id h.tail_ne, indexFind_indexErase]
            simp
          · exact hc o h1 hx
      · simp only [hq, hz, if_true, if_false]
        refine ⟨?_, fun _ _ => trivial, ?_⟩
        · intro j o hj
          cases j with
          | zero =>
            simp only [List.getElem?_cons_zero, Option.some.injEq] at hj
            subst hj
            exact h 0 top (by simp)
          | succ j =>
            exact h (j + 1) o (by simpa using hj)
        · intro o ho hx
          exfalso
          rcases List.mem_cons.mp ho with h1 | h1
          · subst h1
            exact hx _ (List.mem_cons_self _ _) rfl
          · exact hx o (List.mem_cons_of_mem _ h1) rfl
    · simp only [hq, if_false]
      refine ⟨h, fun _ _ => trivial, ?_⟩
      intro o ho hx
      exact absurd rfl (hx o ho)

/-- In an indexed sorted book, no identifier of a later level is in the first. -/
theorem LevelsOK.head_disjoint {s : Side} {bp : P} {L : PriceLevel P} {rest : Book P}
    {oi : OrderIndex P} (hs : BookSorted s ((bp, L) :: rest))
    (h : LevelsOK s ((bp, L) :: rest) oi) :
    ∀ o ∈ bookOrders rest, ∀ x ∈ L, x.id ≠ o.id := by
  intro o ho x hx he
  obtain ⟨kl, hkl, hokl⟩ := mem_bookOrders.mp ho
  obtain ⟨j, hj⟩ := List.mem_iff_getElem?.mp hokl
  obtain ⟨i, hi⟩ := List.mem_iff_getElem?.mp hx
  have h1 := h kl (List.mem_cons_of_mem _ hkl) j o hj
  have h2 := h (bp, L) (List.mem_cons_self _ _) i x hi
  rw [he, h1] at h2
  simp only [Option.some.injEq, BookEntry.mk.injEq, true_and] at h2
  exact keyBefore_ne (hs.head kl hkl) h2.1.symm

theorem bookOrders_cons (bp : P) (L : PriceLevel P) (rest : Book P) :
    bookOrders ((bp, L) :: rest) = L ++ bookOrders rest := by
  simp [bookOrders]

/-- The orders left in the book by `matchOrder` are orders of the book before,
up to their quantity. -/
theorem matchLoop_orders (crosses : Order P → P → Bool) (B : Book P) :
    ∀ (inc : Order P) (oi : OrderIndex P) (T : List (Trade P)),
      ∀ x ∈ bookOrders (matchLoop crosses inc B oi T).book,
        ∃ o ∈ bookOrders B, o.key = x.key := by
  induction B with
  | nil =>
    intro inc oi T x hx
    simp [matchLoop_nil, bookOrders] at hx
  | cons kl0 rest ih =>
    obtain ⟨bp, L⟩ := kl0
    intro inc oi T x hx
    rcases matchLoop_cases crosses inc bp L rest oi T with h1 | ⟨_, h1⟩ | ⟨_, h1⟩
    · rw [h1] at hx
      exact ⟨x, hx, rfl⟩
    · rw [h1] at hx
      obtain ⟨o, ho, he⟩ := ih _ _ _ x hx
      exact ⟨o, by rw [bookOrders_cons]; exact List.mem_append_right _ ho, he⟩
    · rw [h1] at hx
      simp only [bookOrders_cons] at hx ⊢
      rcases List.mem_append.mp hx with h2 | h2
      · have hk : x.key ∈ L.map Order.key :=
          (matchLevel_level_suffix bp L inc oi T).subset (List.mem_map.mpr ⟨x, h2, rfl⟩)
        obtain ⟨o, ho, he⟩ := List.mem_map.mp hk
        exact ⟨o, List.mem_append_left _ ho, he⟩
      · exact ⟨x, List.mem_append_right _ h2, rfl⟩

/-- The index after `matchOrder`: the levels left in the book are indexed by
position, identifiers that did not rest in the book keep their entries, and
identifiers that left the book have none. -/
theorem matchLoop_index (crosses : Order P → P → Bool) (s : Side) (B : Book P) :
    ∀ (inc : Order P) (oi : OrderIndex P) (T : List (Trade P)),
      BookSorted s B → LevelsOK s B oi →
      LevelsOK s (matchLoop crosses inc B oi T).book (matchLoop crosses inc B oi T).orderIndex ∧
      (∀ id, (∀ o ∈ bookOrders B, o.id ≠ id) →
        indexFind (matchLoop crosses inc B oi T).orderIndex id = indexFind oi id) ∧
      (∀ o ∈ bookOrders B, (∀ x ∈ bookOrders (matchLoop crosses inc B oi T).book, x.id ≠ o.id) →
        indexFind (matchLoop crosses inc B oi T).orderIndex o.id = none) := by
  induction B with
  | nil =>
    intro inc oi T _ h
    refine ⟨by simpa [matchLoop_nil] using h, fun _ _ => by simp [matchLoop_nil], ?_⟩
    intro o ho
    simp [bookOrders] at ho
  | cons kl0 rest ih =>
    obtain ⟨bp, L⟩ := kl0
    intro inc oi T hs h
    obtain ⟨la, lb, lc⟩ := matchLevel_index s bp L inc oi T (h (bp, L) (List.mem_cons_self _ _))
    have hdis := h.head_disjoint hs
    have hrest : LevelsOK s rest (matchLevel bp inc L oi T).orderIndex := by
      intro kl hkl j o hj
      have hmem : o ∈ bookOrders rest := mem_bookOrders.mpr ⟨kl, hkl, List.getElem?_mem hj⟩
      rw [lb o.id (fun x hx => hdis o hmem x hx)]
      exact h kl (List.mem_cons_of_mem _ hkl) j o hj
    rcases matchLoop_cases crosses inc bp L rest oi T with h1 | ⟨he, h1⟩ | ⟨_, h1⟩
    · rw [h1]
      refine ⟨h, fun _ _ => rfl, ?_⟩
      intro o ho hx
      exact absurd rfl (hx o ho)
    · rw [h1]
      obtain ⟨ia, ib, ic⟩ := ih (matchLevel bp inc L oi T).incoming
        (matchLevel bp inc L oi T).orderIndex (matchLevel bp inc L oi T).trades hs.tail hrest
      refine ⟨ia, ?_, ?_⟩
      · intro id hid
        rw [bookOrders_cons] at hid
        rw [ib id (fun o ho => hid o (List.mem_append_right _ ho)),
          lb id (fun o ho => hid o (List.mem_append_left _ ho))]
      · intro o ho hx
        rw [bookOrders_cons] at ho
        rcases List.mem_append.mp ho with h2 | h2
        · rw [ib o.id (fun x hx' => (hdis x hx' o h2).symm)]
          exact lc o h2 (by rw [he]; simp)
        · exact ic o h2 hx
    · rw [h1]
      refine ⟨?_, ?_, ?_⟩
      · intro kl hkl
        rcases List.mem_cons.mp hkl with h2 | h2
        · rw [h2]
          exact la
        · exact hrest kl h2
      · intro id hid
        rw [bookOrders_cons] at hid
        exact lb id (fun o ho => hid o (List.mem_append_left _ ho))
      · intro o ho hx
        simp only [bookOrders_cons] at ho hx
        rcases List.mem_append.mp ho with h2 | h2
        · exact lc o h2 (fun x hx' => hx x (List.mem_append_left _ hx'))
        · exact absurd rfl (hx o (List.mem_append_right _ h2))

/-- `addOrder` as step 1 followed, for a positive quantity, by step 2. -/
theorem addOrder_steps (e : MatchingEngine P) (o : Order P) :
    addOrder e o =
      (if o.quantity > 0 then insertOrder (afterMatch e o) o else afterMatch e o,
        (addOrderMatch e o).trades) := by
  obtain ⟨id, side, price, qty, ts⟩ := o
  by_cases hq : qty > 0
  · cases side <;> simp [addOrder_eq, hq, insertOrder, afterMatch, setBook, bookOf, Side.opposite]
  · cases side <;> simp [addOrder_eq, hq, insertOrder, afterMatch, setBook, bookOf, Side.opposite]

theorem restsAt_iff {e : MatchingEngine P} (hwf : EngineWF e) (s : Side) (k : P) (j : Nat)
    (o : Order P) :
    RestsAt e s k j o ↔ ∃ kl ∈ bookOf e s, kl.1 = k ∧ kl.2[j]? = some o := by
  constructor
  · rintro ⟨L, hL, hj⟩
    exact ⟨(k, L), mapFind_mem hL, rfl, hj⟩
  · rintro ⟨⟨k', L⟩, hkl, rfl, hj⟩
    exact ⟨L, mapFind_of_mem (hwf s).1 hkl, hj⟩

theorem RestsAt.mem {e : MatchingEngine P} {s : Side} {k : P} {j : Nat} {o : Order P}
    (h : RestsAt e s k j o) : o ∈ bookOrders (bookOf e s) := by
  obtain ⟨L, hL, hj⟩ := h
  exact mem_bookOrders.mpr ⟨(k, L), mapFind_mem hL, List.getElem?_mem hj⟩

theorem exists_restsAt {e : MatchingEngine P} (hwf : EngineWF e) {s : Side} {o : Order P}
    (h : o ∈ bookOrders (bookOf e s)) : ∃ k j, RestsAt e s k j o := by
  obtain ⟨kl, hkl, ho⟩ := mem_bookOrders.mp h
  obtain ⟨j, hj⟩ := List.mem_iff_getElem?.mp ho
  exact ⟨kl.1, j, (restsAt_iff hwf s kl.1 j o).mpr ⟨kl, hkl, rfl, hj⟩⟩

theorem IndexInv.levelsOK {e : MatchingEngine P} (hwf : EngineWF e) (h : IndexInv e)
    (s : Side) : LevelsOK s (bookOf e s) e.orderIndex := by
  intro kl hkl j o hj
  exact h.1 s kl.1 j o ((restsAt_iff hwf s kl.1 j o).mpr ⟨kl, hkl, rfl, hj⟩)

/-- The index invariant from its list form: indexed levels on both sides, and no
entry for an identifier that does not rest. -/
theorem indexInv_of {e : MatchingEngine P} (hwf : EngineWF e)
    (h1 : ∀ s, LevelsOK s (bookOf e s) e.orderIndex)
    (h2 : ∀ id entry, indexFind e.orderIndex id = some entry →
      ∃ s, ∃ o ∈ bookOrders (bookOf e s), o.id = id) : IndexInv e := by
  have hA : ∀ s k j o, RestsAt e s k j o → indexFind e.orderIndex o.id = some ⟨s, k, j⟩ := by
    intro s k j o hr
    obtain ⟨kl, hkl, rfl, hj⟩ := (restsAt_iff hwf s k j o).mp hr
    exact h1 s kl hkl j o hj
  refine ⟨hA, ?_⟩
  intro id entry hf
  obtain ⟨s, o, ho, rfl⟩ := h2 id entry hf
  obtain ⟨k, j, hr⟩ := exists_restsAt hwf ho
  have := hA s k j o hr
  rw [hf] at this
  simp only [Option.some.injEq] at this
  subst this
  exact ⟨o, hr, rfl⟩

theorem IndexInv.rests {e : MatchingEngine P} (h : IndexInv e) {id : OrderId}
    {entry : BookEntry P} (hf : indexFind e.orderIndex id = some entry) :
    ∃ o ∈ bookOrders (bookOf e entry.side), o.id = id := by
  obtain ⟨o, hr, ho⟩ := h.2 id entry hf
  exact ⟨o, hr.mem, ho⟩

/-- Orders resting on different sides have different identifiers. -/
theorem IndexInv.sides_disjoint {e : MatchingEngine P} (hwf : EngineWF e) (h : IndexInv e)
    {s t : Side} (hst : s ≠ t) {x y : Order P} (hx : x ∈ bookOrders (bookOf e s))
    (hy : y ∈ bookOrders (bookOf e t)) : x.id ≠ y.id := by
  intro he
  obtain ⟨k, j, hr⟩ := exists_restsAt hwf hx
  obtain ⟨k', j', hr'⟩ := exists_restsAt hwf hy
  have h1 := h.1 s k j x hr
  have h2 := h.1 t k' j' y hr'
  rw [he, h2] at h1
  simp only [Option.some.injEq, BookEntry.mk.injEq] at h1
  exact hst h1.1.symm

@[simp] theorem afterMatch_orderIndex (e : MatchingEngine P) (o : Order P) :
    (afterMatch e o).orderIndex = (addOrderMatch e o).orderIndex := rfl

@[simp] theorem afterMatch_book_opposite (e : MatchingEngine P) (o : Order P) :
    bookOf (afterMatch e o) o.side.opposite = (addOrderMatch e o).book := by
  simp [afterMatch]

@[simp] theorem afterMatch_book_same (e : MatchingEngine P) (o : Order P) :
    bookOf (afterMatch e o) o.side = bookOf e o.side := by
  simp [afterMatch]

theorem afterMatch_wf (e : MatchingEngine P) (o : Order P) (h : EngineWF e) :
    EngineWF (afterMatch e o) := by
  intro s
  rcases Side.eq_or_opposite o.side s with hs | hs
  · subst hs
    rw [afterMatch_book_same]
    exact h _
  · subst hs
    rw [afterMatch_book_opposite]
    exact matchLoop_wf _ _ _ _ _ _ (h o.side.opposite)

/-- Step 1 of `addOrder` keeps the engine consistent. -/
theorem afterMatch_consistent (U : List OrderId) (e : MatchingEngine P) (o : Order P)
    (h : Consistent U e) : Consistent U (afterMatch e o) := by
  obtain ⟨hwf, hidx, hU⟩ := h
  have hwf' := afterMatch_wf e o hwf
  obtain ⟨ia, ib, ic⟩ := matchLoop_index (crossesOn o.side.opposite) o.side.opposite
    (bookOf e o.side.opposite) o e.orderIndex [] (hwf _).1 (hidx.levelsOK hwf _)
  have horders := matchLoop_orders (crossesOn o.side.opposite) (bookOf e o.side.opposite) o
    e.orderIndex []
  refine ⟨hwf', indexInv_of hwf' ?_ ?_, ?_⟩
  · intro s
    rcases Side.eq_or_opposite o.side s with hs | hs
    · subst hs
      rw [afterMatch_book_same, afterMatch_orderIndex]
      intro kl hkl j x hj
      have hx : x ∈ bookOrders (bookOf e o.side) :=
        mem_bookOrders.mpr ⟨kl, hkl, List.getElem?_mem hj⟩
      have := ib x.id (fun y hy => hidx.sides_disjoint hwf (Side.opposite_ne o.side) hy hx)
      simp only [addOrderMatch]
      rw [this]
      exact hidx.levelsOK hwf _ kl hkl j x hj
    · subst hs
      rw [afterMatch_book_opposite, afterMatch_orderIndex]
      exact ia
  · intro id entry hf
    rw [afterMatch_orderIndex] at hf
    by_cases hex : ∃ y ∈ bookOrders (bookOf e o.side.opposite), y.id = id
    · obtain ⟨y, hy, rfl⟩ := hex
      refine ⟨o.side.opposite, ?_⟩
      rw [afterMatch_book_opposite]
      by_contra hno
      have hnone := ic y hy (fun x hx hxy => hno ⟨x, hx, hxy⟩)
      simp only [addOrderMatch] at hf
      rw [hnone] at hf
      exact absurd hf (by simp)
    · have hframe := ib id (fun y hy hyid => hex ⟨y, hy, hyid⟩)
      simp only [addOrderMatch] at hf
      rw [hframe] at hf
      obtain ⟨x, hx, hxid⟩ := hidx.rests hf
      rcases Side.eq_or_opposite o.side entry.side with hs | hs
      · refine ⟨o.side, x, ?_, hxid⟩
        rw [afterMatch_book_same, ← hs]
        exact hx
      · rw [hs] at hx
        exact absurd ⟨x, hx, hxid⟩ hex
  · intro s x hx
    rcases Side.eq_or_opposite o.side s with hs | hs
    · subst hs
      rw [afterMatch_book_same] at hx
      exact hU _ x hx
    · subst hs
      rw [afterMatch_book_opposite] at hx
      obtain ⟨y, hy, hk⟩ := horders x hx
      have : y.id = x.id := congrArg (fun q => q.1) hk
      rw [← this]
      exact hU _ y hy

@[simp] theorem insertOrder_book_same (e : MatchingEngine P) (o : Order P) :
    bookOf (insertOrder e o) o.side = pushBack o.side (bookOf e o.side) o := by
  simp [insertOrder]

@[simp] theorem insertOrder_book_opposite (e : MatchingEngine P) (o : Order P) :
    bookOf (insertOrder e o) o.side.opposite = bookOf e o.side.opposite := by
  simp [insertOrder]

/-- The entry that step 2 of `addOrder` writes names the position behind the
orders already at the price. -/
theorem insertOrder_orderIndex (e : MatchingEngine P) (o : Order P) (hwf : EngineWF e) :
    (insertOrder e o).orderIndex = indexAssign e.orderIndex o.id
      ⟨o.side, o.price, ((mapFind (bookOf e o.side) o.price).getD []).length⟩ := by
  simp [insertOrder, mapFind_mapSubscript (hwf o.side).1]

theorem insertOrder_wf (e : MatchingEngine P) (o : Order P) (h : EngineWF e)
    (hq : 0 < o.quantity) : EngineWF (insertOrder e o) := by
  intro s
  rcases Side.eq_or_opposite o.side s with hs | hs
  · subst hs
    rw [insertOrder_book_same]
    exact pushBack_wf (h _) o ⟨rfl, rfl, hq⟩
  · subst hs
    rw [insertOrder_book_opposite]
    exact h _

/-- Where orders rest after step 2 of `addOrder`: where they rested, and the new
order behind the orders already at its price. -/
theorem restsAt_insertOrder (e : MatchingEngine P) (o : Order P) (hwf : EngineWF e)
    (s : Side) (k : P) (j : Nat) (x : Order P) :
    RestsAt (insertOrder e o) s k j x ↔
      RestsAt e s k j x ∨
        (s = o.side ∧ k = o.price ∧
          j = ((mapFind (bookOf e o.side) o.price).getD []).length ∧ x = o) := by
  rcases Side.eq_or_opposite o.side s with hs | hs
  · subst hs
    unfold RestsAt
    rw [insertOrder_book_same]
    simp only [mapFind_pushBack (hwf o.side).1]
    by_cases hk : k = o.price
    · subst hk
      simp only [if_true, Option.some.injEq, exists_eq_left', true_and]
      cases hL : mapFind (bookOf e o.side) o.price with
      | none =>
        simp only [Option.getD_none, List.nil_append, List.length_nil, false_and, exists_false,
          false_or]
        cases j with
        | zero => simp [eq_comm]
        | succ j => simp
      | some L =>
        simp only [Option.getD_some, Option.some.injEq, exists_eq_left']
        rcases Nat.lt_trichotomy j L.length with hj | hj | hj
        · rw [List.getElem?_append_left hj]
          constructor
          · intro h; exact Or.inl h
          · rintro (h | ⟨h, _⟩)
            · exact h
            · omega
        · subst hj
          rw [List.getElem?_append_right (le_refl _)]
          simp [eq_comm]
        · rw [List.getElem?_append_right (le_of_lt hj)]
          have h1 : j - L.length ≠ 0 := by omega
          have h2 : L[j]? = none := List.getElem?_eq_none (le_of_lt hj)
          have h3 : j ≠ L.length := by omega
          cases hd : j - L.length with
          | zero => exact absurd hd h1
          | succ d => simp [h2, h3]
    · simp [hk]
  · subst hs
    unfold RestsAt
    rw [insertOrder_book_opposite]
    have := Side.opposite_ne o.side
    simp [this]

/-- Step 2 of `addOrder` with a fresh identifier keeps the engine consistent. -/
theorem insertOrder_consistent (U : List OrderId) (e : MatchingEngine P) (o : Order P)
    (h : Consistent U e) (hfresh : o.id ∉ U) (hq : 0 < o.quantity) :
    Consistent (U ++ [o.id]) (insertOrder e o) := by
  obtain ⟨hwf, hidx, hU⟩ := h
  have hwf' := insertOrder_wf e o hwf hq
  have hne : ∀ s k j x, RestsAt e s k j x → x.id ≠ o.id := by
    intro s k j x hr he
    exact hfresh (he ▸ hU s x hr.mem)
  refine ⟨hwf', ⟨?_, ?_⟩, ?_⟩
  · intro s k j x hr
    rw [insertOrder_orderIndex e o hwf, indexFind_indexAssign]
    rcases (restsAt_insertOrder e o hwf s k j x).mp hr with h1 | ⟨h1, h2, h3, h4⟩
    · simp only [hne s k j x h1, if_false]
      exact hidx.1 s k j x h1
    · subst h1 h2 h3 h4
      simp
  · intro id entry hf
    rw [insertOrder_orderIndex e o hwf, indexFind_indexAssign] at hf
    by_cases hid : id = o.id
    · subst hid
      simp only [if_true, Option.some.injEq] at hf
      subst hf
      exact ⟨o, (restsAt_insertOrder e o hwf _ _ _ _).mpr (Or.inr ⟨rfl, rfl, rfl, rfl⟩), rfl⟩
    · simp only [hid, if_false] at hf
      obtain ⟨x, hx, hxid⟩ := hidx.2 id entry hf
      exact ⟨x, (restsAt_insertOrder e o hwf _ _ _ _).mpr (Or.inl hx), hxid⟩
  · intro s x hx
    obtain ⟨k, j, hr⟩ := exists_restsAt hwf' hx
    rcases (restsAt_insertOrder e o hwf s k j x).mp hr with h1 | ⟨_, _, _, h4⟩
    · exact List.mem_append_left _ (hU s x h1.mem)
    · subst h4
      simp

theorem drop_eraseIdx_self {α : Type} (L : List α) (j : Nat) (hj : j < L.length) :
    (L.eraseIdx j).drop j = L.drop (j + 1) := by
  rw [List.eraseIdx_eq_take_drop_succ]
  have hlen : (L.take j).length = j := by simp; omega
  rw [List.drop_append_eq_append_drop, hlen]
  simp [List.drop_eq_nil_of_le (le_of_eq hlen)]

/-- The index invariant from its two halves, the second in a weak form: no
entry for an identifier that does not rest. -/
theorem indexInv_of_restsAt {e : MatchingEngine P}
    (h1 : ∀ s k j o, RestsAt e s k j o → indexFind e.orderIndex o.id = some ⟨s, k, j⟩)
    (h2 : ∀ id entry, indexFind e.orderIndex id = some entry →
      ∃ s k j o, RestsAt e s k j o ∧ o.id = id) : IndexInv e := by
  refine ⟨h1, ?_⟩
  intro id entry hf
  obtain ⟨s, k, j, o, hr, rfl⟩ := h2 id entry hf
  have := h1 s k j o hr
  rw [hf] at this
  simp only [Option.some.injEq] at this
  subst this
  exact ⟨o, hr, rfl⟩

/-- The engine after `cancelOrder` of an identifier whose entry names a position
of a level. -/
theorem cancelOrder_found (e : MatchingEngine P) (id : OrderId) (entry : BookEntry P)
    (L : PriceLevel P) (hf : indexFind e.orderIndex id = some entry)
    (hL : mapFind (bookOf e entry.side) entry.price = some L) (hj : entry.index < L.length) :
    cancelOrder e id =
      ({ setBook e entry.side
            (if (L.eraseIdx entry.index).isEmpty then mapErase (bookOf e entry.side) entry.price
             else mapAssign (bookOf e entry.side) entry.price (L.eraseIdx entry.index)) with
          orderIndex := indexErase (reindexLoop (L.drop (entry.index + 1)) entry.index
            e.orderIndex) id }, true) := by
  rw [cancelOrder_eq, hf]
  simp only [cancelInBook_fst _ _ _ L hL, cancelInBook_snd _ _ _ L hL, hj, if_true, reindexFrom,
    drop_eraseIdx_self L entry.index hj]

/-- Where orders rest after `cancelOrder`: the level named by the entry loses
the named position; nothing else moves. -/
theorem restsAt_cancelOrder (e : MatchingEngine P) (hwf : EngineWF e) (id : OrderId)
    (entry : BookEntry P) (L : PriceLevel P) (hf : indexFind e.orderIndex id = some entry)
    (hL : mapFind (bookOf e entry.side) entry.price = some L) (hj : entry.index < L.length)
    (s : Side) (k : P) (j : Nat) (x : Order P) :
    RestsAt (cancelOrder e id).1 s k j x ↔
      if s = entry.side ∧ k = entry.price then (L.eraseIdx entry.index)[j]? = some x
      else RestsAt e s k j x := by
  rw [cancelOrder_found e id entry L hf hL hj]
  unfold RestsAt
  simp only [bookOf_mk_orderIndex]
  by_cases hs : s = entry.side
  · subst hs
    rw [bookOf_setBook_same]
    by_cases hk : k = entry.price
    · subst hk
      simp only [and_self, if_true]
      by_cases he : (L.eraseIdx entry.index).isEmpty
      · simp only [he, if_true, mapFind_mapErase (hwf _).1]
        have : L.eraseIdx entry.index = [] := by simpa using he
        simp [this]
      · simp only [he]
        rw [if_neg (by simp), mapFind_mapAssign]
        simp [hL]
    · have hk' : ¬ (entry.side = entry.side ∧ k = entry.price) := fun h => hk h.2
      rw [if_neg hk']
      by_cases he : (L.eraseIdx entry.index).isEmpty
      · simp only [he, if_true, mapFind_mapErase (hwf _).1, hk, if_false]
      · simp only [he]
        rw [if_neg (by simp), mapFind_mapAssign]
        simp [hk]
  · have hs' : ¬ (s = entry.side ∧ k = entry.price) := fun h => hs h.1
    rw [if_neg hs']
    rw [bookOf_setBook_ne e _ hs]

theorem cancelOrder_orderIndex (e : MatchingEngine P) (id : OrderId)
    (entry : BookEntry P) (L : PriceLevel P) (hf : indexFind e.orderIndex id = some entry)
    (hL : mapFind (bookOf e entry.side) entry.price = some L) (hj : entry.index < L.length) :
    (cancelOrder e id).1.orderIndex =
      indexErase (reindexLoop (L.drop (entry.index + 1)) entry.index e.orderIndex) id := by
  rw [cancelOrder_found e id entry L hf hL hj]

/-- Under the index invariant an identifier rests at one place only. -/
theorem IndexInv.pos_unique {e : MatchingEngine P} (h : IndexInv e) {s s' : Side} {k k' : P}
    {j j' : Nat} {x x' : Order P} (hr : RestsAt e s k j x) (hr' : RestsAt e s' k' j' x')
    (hid : x.id = x'.id) : s = s' ∧ k = k' ∧ j = j' := by
  have h1 := h.1 s k j x hr
  have h2 := h.1 s' k' j' x' hr'
  rw [hid, h2] at h1
  simp only [Option.some.injEq, BookEntry.mk.injEq] at h1
  exact ⟨h1.1.symm, h1.2.1.symm, h1.2.2.symm⟩

theorem cancelOrder_absent (e : MatchingEngine P) (id : OrderId)
    (h : indexFind e.orderIndex id = none) : cancelOrder e id = (e, false) := by
  unfold cancelOrder
  rw [h]

/-- `cancelOrder` keeps the engine consistent. -/
theorem cancelOrder_consistent (U : List OrderId) (e : MatchingEngine P) (id : OrderId)
    (h : Consistent U e) : Consistent U (cancelOrder e id).1 := by
  obtain ⟨hwf, hidx, hU⟩ := h
  have hwf' := cancelOrder_wf e id hwf
  cases hf : indexFind e.orderIndex id with
  | none =>
    rw [cancelOrder_absent e id hf]
    exact ⟨hwf, hidx, hU⟩
  | some entry =>
    obtain ⟨o0, hr0, ho0⟩ := hidx.2 id entry hf
    obtain ⟨L, hL, hj0⟩ := (show RestsAt e entry.side entry.price entry.index o0 from hr0)
    have hj : entry.index < L.length := (List.getElem?_eq_some.mp hj0).1
    have hat : ∀ i x, L[i]? = some x → RestsAt e entry.side entry.price i x :=
      fun i x hx => ⟨L, hL, hx⟩
    have hrest := restsAt_cancelOrder e hwf id entry L hf hL hj
    have hoi := cancelOrder_orderIndex e id entry L hf hL hj
    -- an order of `e` other than the cancelled one keeps or gets the entry of its place
    have hdrop : ∀ i x, (L.drop (entry.index + 1))[i]? = some x →
        L[entry.index + 1 + i]? = some x := by
      intro i x hx
      rwa [List.getElem?_drop] at hx
    have hnd : ((L.drop (entry.index + 1)).map (fun o => o.id)).Nodup := by
      have hLn : (L.map (fun o => o.id)).Nodup :=
        (show IdxLevelOK entry.side entry.price L e.orderIndex from
          fun i x hx => hidx.1 _ _ _ _ (hat i x hx)).nodup_ids
      exact List.Nodup.sublist ((List.drop_sublist _ _).map _) hLn
    refine ⟨hwf', indexInv_of_restsAt ?_ ?_, ?_⟩
    · intro s k j x hr
      rw [hrest] at hr
      rw [hoi, indexFind_indexErase]
      by_cases hsk : s = entry.side ∧ k = entry.price
      · obtain ⟨rfl, rfl⟩ := hsk
        simp only [and_self, if_true] at hr
        rw [List.getElem?_eraseIdx] at hr
        by_cases hlt : j < entry.index
        · simp only [hlt, if_true] at hr
          have hne : x.id ≠ id := by
            intro he
            have := hidx.pos_unique (hat j x hr) hr0 (he.trans ho0.symm)
            omega
          simp only [hne, if_false]
          rw [reindexLoop_frame]
          · exact hidx.1 _ _ _ _ (hat j x hr)
          · intro y hy he
            obtain ⟨i, hi⟩ := List.mem_iff_getElem?.mp hy
            have := hidx.pos_unique (hat _ y (hdrop i y hi)) (hat j x hr) he
            omega
        · simp only [hlt, if_false] at hr
          have hne : x.id ≠ id := by
            intro he
            have := hidx.pos_unique (hat _ x hr) hr0 (he.trans ho0.symm)
            omega
          simp only [hne, if_false]
          have hx' : (L.drop (entry.index + 1))[j - entry.index]? = some x := by
            rw [List.getElem?_drop]
            have : entry.index + 1 + (j - entry.index) = j + 1 := by omega
            rw [this]
            exact hr
          rw [reindexLoop_get _ _ _ hnd _ x _ hx' (hidx.1 _ _ _ _ (hat _ x hr))]
          simp only [Option.some.injEq, BookEntry.mk.injEq, true_and]
          omega
      · rw [if_neg hsk] at hr
        have hne : x.id ≠ id := by
          intro he
          have := hidx.pos_unique hr hr0 (he.trans ho0.symm)
          exact hsk ⟨this.1, this.2.1⟩
        simp only [hne, if_false]
        rw [reindexLoop_frame]
        · exact hidx.1 _ _ _ _ hr
        · intro y hy he
          obtain ⟨i, hi⟩ := List.mem_iff_getElem?.mp hy
          have := hidx.pos_unique (hat _ y (hdrop i y hi)) hr he
          exact hsk ⟨this.1.symm, this.2.1.symm⟩
    · intro id' entry' hf'
      rw [hoi, indexFind_indexErase] at hf'
      by_cases hid : id' = id
      · simp [hid] at hf'
      · simp only [hid, if_false] at hf'
        by_cases hmem : ∃ y ∈ L.drop (entry.index + 1), y.id = id'
        · obtain ⟨y, hy, rfl⟩ := hmem
          obtain ⟨i, hi⟩ := List.mem_iff_getElem?.mp hy
          refine ⟨entry.side, entry.price, entry.index + i, y, ?_, rfl⟩
          rw [hrest]
          simp only [and_self, if_true]
          rw [List.getElem?_eraseIdx]
          have hlt : ¬ entry.index + i < entry.index := by omega
          simp only [hlt, if_false]
          have := hdrop i y hi
          have h3 : entry.index + 1 + i = entry.index + i + 1 := by omega
          rw [h3] at this
          exact this
        · rw [reindexLoop_frame _ _ _ _ (fun y hy he => hmem ⟨y, hy, he⟩)] at hf'
          obtain ⟨x, hx, hxid⟩ := hidx.2 id' entry' hf'
          by_cases hsk : entry'.side = entry.side ∧ entry'.price = entry.price
          · obtain ⟨L', hL', hx'⟩ := (show RestsAt e entry'.side entry'.price entry'.index x from hx)
            rw [hsk.1, hsk.2, hL] at hL'
            simp only [Option.some.injEq] at hL'
            subst hL'
            have hne : entry'.index ≠ entry.index := by
              intro he
              rw [he, hj0] at hx'
              simp only [Option.some.injEq] at hx'
              exact hid (by rw [← hxid, ← hx', ho0])
            have hxm : x ∈ L.eraseIdx entry.index :=
              List.mem_eraseIdx_iff_getElem?.mpr ⟨entry'.index, hne, hx'⟩
            obtain ⟨j, hjx⟩ := List.mem_iff_getElem?.mp hxm
            refine ⟨entry.side, entry.price, j, x, ?_, hxid⟩
            rw [hrest]
            simp only [and_self, if_true]
            exact hjx
          · refine ⟨entry'.side, entry'.price, entry'.index, x, ?_, hxid⟩
            rw [hrest, if_neg hsk]
            exact hx
    · intro s x hx
      obtain ⟨k, j, hr⟩ := exists_restsAt hwf' hx
      rw [hrest] at hr
      by_cases hsk : s = entry.side ∧ k = entry.price
      · obtain ⟨rfl, rfl⟩ := hsk
        simp only [and_self, if_true] at hr
        have hxL : x ∈ L := List.mem_of_mem_eraseIdx (List.getElem?_mem hr)
        exact hU _ x (mem_bookOrders.mpr ⟨(entry.price, L), mapFind_mem hL, hxL⟩)
      · rw [if_neg hsk] at hr
        exact hU s x hr.mem

theorem Consistent.mono_used {U V : List OrderId} {e : MatchingEngine P} (h : Consistent U e)
    (hUV : ∀ x ∈ U, x ∈ V) : Consistent V e :=
  ⟨h.1, h.2.1, fun s o ho => hUV _ (h.2.2 s o ho)⟩

theorem addOrder_consistent (U : List OrderId) (e : MatchingEngine P) (o : Order P)
    (h : Consistent U e) (hfresh : o.id ∉ U) : Consistent (U ++ [o.id]) (addOrder e o).1 := by
  rw [addOrder_steps]
  have h1 := afterMatch_consistent U e o h
  by_cases hq : o.quantity > 0
  · simp only [hq, if_true]
    exact insertOrder_consistent U _ o h1 hfresh hq
  · simp only [hq, if_false]
    exact h1.mono_used (fun x hx => List.mem_append_left _ hx)

theorem addedOrders_append (ops ops' : List (Op P)) :
    addedOrders (ops ++ ops') = addedOrders ops ++ addedOrders ops' := by
  induction ops with
  | nil => rfl
  | cons op rest ih =>
    cases op with
    | add o => simp [addedOrders, ih]
    | cancel id => simp [addedOrders, ih]

theorem addedIds_snoc_add (ops : List (Op P)) (o : Order P) :
    addedIds (ops ++ [Op.add o]) = addedIds ops ++ [o.id] := by
  simp [addedIds, addedOrders_append, addedOrders]

theorem addedIds_snoc_cancel (ops : List (Op P)) (id : OrderId) :
    addedIds (ops ++ [Op.cancel id]) = addedIds ops := by
  simp [addedIds, addedOrders_append, addedOrders]

theorem empty_consistent : Consistent [] (MatchingEngine.empty : MatchingEngine P) := by
  refine ⟨empty_wf, ⟨?_, ?_⟩, ?_⟩
  · rintro s k j o ⟨L, hL, _⟩
    cases s <;> simp [MatchingEngine.empty, bookOf, mapFind_nil, mapFind_cons] at hL
  · intro id entry hf
    simp [MatchingEngine.empty, indexFind] at hf
  · intro s o ho
    cases s <;> simp [MatchingEngine.empty, bookOf, bookOrders] at ho

/-- Every state reached with pairwise distinct identifiers is consistent. -/
theorem reach_consistent (ops : List (Op P)) (h : (addedIds ops).Nodup) :
    Consistent (addedIds ops) (reach ops) := by
  induction ops using List.reverseRecOn with
  | nil => exact empty_consistent
  | append_singleton ops op ih =>
    rw [reach_snoc]
    cases op with
    | add o =>
      rw [addedIds_snoc_add] at h ⊢
      have hn := List.nodup_append.mp h
      refine addOrder_consistent _ _ o (ih hn.1) ?_
      intro hmem
      exact hn.2.2 hmem (List.mem_singleton_self _)
    | cancel id =>
      rw [addedIds_snoc_cancel] at h ⊢
      exact cancelOrder_consistent _ _ id (ih h)

end IndexInvariant

/-! ## Arrival order -/

section TimePriority

variable {P : Type} [LinearOrder P] [Zero P]

theorem Order.key_timestamp (o : Order P) : o.timestamp = o.key.2.2.2 := rfl

/-- A level whose orders are, up to quantities, a sublist of a level in arrival
order is in arrival order. -/
theorem LevelTimed.of_sublist {st : List Nat} {L L' : PriceLevel P} (h : LevelTimed st L)
    (hsub : (L'.map Order.key).Sublist (L.map Order.key)) : LevelTimed st L' := by
  constructor
  · have h1 : ((L'.map Order.key).map (fun q => q.2.2.2)).Sublist
        ((L.map Order.key).map (fun q => q.2.2.2)) := hsub.map _
    simp only [List.map_map] at h1
    exact List.Pairwise.sublist h1 h.1
  · intro o ho
    have : o.key ∈ L.map Order.key := hsub.subset (List.mem_map.mpr ⟨o, ho, rfl⟩)
    obtain ⟨x, hx, hk⟩ := List.mem_map.mp this
    have ht : x.timestamp = o.timestamp := congrArg (fun q => q.2.2.2) hk
    rw [← ht]
    exact h.2 x hx

theorem LevelTimed.mono_stamps {st st' : List Nat} {L : PriceLevel P} (h : LevelTimed st L)
    (hsub : ∀ a ∈ st, a ∈ st') : LevelTimed st' L :=
  ⟨h.1, fun o ho => hsub _ (h.2 o ho)⟩

theorem matchLoop_timed (crosses : Order P → P → Bool) (st : List Nat) (B : Book P) :
    ∀ (inc : Order P) (oi : OrderIndex P) (T : List (Trade P)),
      (∀ kl ∈ B, LevelTimed st kl.2) →
      ∀ kl ∈ (matchLoop crosses inc B oi T).book, LevelTimed st kl.2 := by
  induction B with
  | nil =>
    intro inc oi T _ kl hkl
    simp [matchLoop_nil] at hkl
  | cons kl0 rest ih =>
    obtain ⟨bp, L⟩ := kl0
    intro inc oi T h kl hkl
    rcases matchLoop_cases crosses inc bp L rest oi T with h1 | ⟨_, h1⟩ | ⟨_, h1⟩
    · rw [h1] at hkl
      exact h kl hkl
    · rw [h1] at hkl
      exact ih _ _ _ (fun x hx => h x (List.mem_cons_of_mem _ hx)) kl hkl
    · rw [h1] at hkl
      rcases List.mem_cons.mp hkl with h2 | h2
      · rw [h2]
        exact (h (bp, L) (List.mem_cons_self _ _)).of_sublist
          (matchLevel_level_suffix bp L inc oi T).sublist
      · exact h kl (List.mem_cons_of_mem _ h2)

theorem afterMatch_timed (st : List Nat) (e : MatchingEngine P) (o : Order P)
    (h : EngineTimed st e) : EngineTimed st (afterMatch e o) := by
  intro s
  rcases Side.eq_or_opposite o.side s with hs | hs
  · subst hs
    rw [afterMatch_book_same]
    exact h _
  · subst hs
    rw [afterMatch_book_opposite]
    exact matchLoop_timed _ st _ _ _ _ (h _)

theorem insertOrder_timed (st : List Nat) (e : MatchingEngine P) (o : Order P)
    (hwf : EngineWF e) (h : EngineTimed st e) (hlate : ∀ a ∈ st, a < o.timestamp) :
    EngineTimed (st ++ [o.timestamp]) (insertOrder e o) := by
  intro s
  rcases Side.eq_or_opposite o.side s with hs | hs
  · subst hs
    rw [insertOrder_book_same]
    rintro ⟨k, L⟩ hkl
    have hf := mapFind_of_mem ((hwf o.side).1.pushBack o) hkl
    rw [mapFind_pushBack (hwf o.side).1] at hf
    by_cases hk : k = o.price
    · simp only [hk, if_true, Option.some.injEq] at hf
      subst hf
      have hold : LevelTimed st ((mapFind (bookOf e o.side) o.price).getD []) := by
        cases hL : mapFind (bookOf e o.side) o.price with
        | none => simp [LevelTimed]
        | some L0 => exact h _ _ (mapFind_mem hL)
      constructor
      · simp only [List.map_append, List.map_cons, List.map_nil]
        rw [List.pairwise_append]
        refine ⟨hold.1, by simp, ?_⟩
        intro a ha b hb
        simp only [List.mem_singleton] at hb
        subst hb
        obtain ⟨x, hx, rfl⟩ := List.mem_map.mp ha
        exact hlate _ (hold.2 x hx)
      · intro x hx
        rcases List.mem_append.mp hx with h1 | h1
        · exact List.mem_append_left _ (hold.2 x h1)
        · simp only [List.mem_singleton] at h1
          subst h1
          simp
    · simp only [hk, if_false] at hf
      exact (h _ _ (mapFind_mem hf)).mono_stamps (fun a ha => List.mem_append_left _ ha)
  · subst hs
    rw [insertOrder_book_opposite]
    intro kl hkl
    exact (h _ kl hkl).mono_stamps (fun a ha => List.mem_append_left _ ha)

theorem cancelOrder_timed (st : List Nat) (e : MatchingEngine P) (id : OrderId)
    (hwf : EngineWF e) (h : EngineTimed st e) : EngineTimed st (cancelOrder e id).1 := by
  rw [cancelOrder_eq]
  cases hf : indexFind e.orderIndex id with
  | none => exact h
  | some entry =>
    intro s
    simp only [bookOf_mk_orderIndex]
    by_cases hs : s = entry.side
    · subst hs
      rw [bookOf_setBook_same]
      cases hL : mapFind (bookOf e entry.side) entry.price with
      | none =>
        rw [cancelInBook_none _ _ _ hL]
        exact h _
      | some L =>
        rintro ⟨k, L'⟩ hkl
        have hf' := mapFind_of_mem ((hwf entry.side).1.cancelInBook e.orderIndex entry) hkl
        rw [mapFind_cancelInBook (hwf entry.side).1 _ _ L hL] at hf'
        by_cases hk : k = entry.price
        · simp only [hk, if_true] at hf'
          by_cases he : (L.eraseIdx entry.index).isEmpty
          · simp [he] at hf'
          · simp only [he] at hf'
            simp only [Bool.false_eq_true, if_false, Option.some.injEq] at hf'
            subst hf'
            exact (h _ _ (mapFind_mem hL)).of_sublist ((List.eraseIdx_sublist _ _).map _)
        · simp only [hk, if_false] at hf'
          exact h _ _ (mapFind_mem hf')
    · rw [bookOf_setBook_ne e _ hs]
      exact h s

theorem addedStamps_snoc_add (ops : List (Op P)) (o : Order P) :
    addedStamps (ops ++ [Op.add o]) = addedStamps ops ++ [o.timestamp] := by
  simp [addedStamps, addedOrders_append, addedOrders]

theorem addedStamps_snoc_cancel (ops : List (Op P)) (id : OrderId) :
    addedStamps (ops ++ [Op.cancel id]) = addedStamps ops := by
  simp [addedStamps, addedOrders_append, addedOrders]

/-- With strictly increasing timestamps every level is in arrival order in every
reachable state. -/
theorem reach_timed (ops : List (Op P)) (h : (addedStamps ops).Pairwise (fun a b => a < b)) :
    EngineTimed (addedStamps ops) (reach ops) := by
  induction ops using List.reverseRecOn with
  | nil =>
    intro s kl hkl
    cases s <;> simp [reach, run, MatchingEngine.empty, bookOf] at hkl
  | append_singleton ops op ih =>
    rw [reach_snoc]
    cases op with
    | add o =>
      rw [addedStamps_snoc_add] at h ⊢
      have hp := List.pairwise_append.mp h
      have h1 := afterMatch_timed _ (reach ops) o (ih hp.1)
      simp only [step]
      rw [addOrder_steps]
      by_cases hq : o.quantity > 0
      · simp only [hq, if_true]
        exact insertOrder_timed _ _ o (afterMatch_wf _ o (reach_wf ops)) h1
          (fun a ha => hp.2.2 a ha _ (List.mem_singleton_self _))
      · simp only [hq, if_false]
        intro s kl hkl
        exact (h1 s kl hkl).mono_stamps (fun a ha => List.mem_append_left _ ha)
    | cancel id =>
      rw [addedStamps_snoc_cancel] at h ⊢
      exact cancelOrder_timed _ _ id (reach_wf ops) (ih h)

theorem bookMakers_fst (B : Book P) :
    (bookMakers B).map Prod.fst = (bookOrders B).map (fun o => o.id) := by
  induction B with
  | nil => rfl
  | cons kl rest ih =>
    simp only [bookMakers, bookOrders, List.map_cons, List.flatten_cons, List.map_append,
      List.map_map] at ih ⊢
    rw [ih]
    rfl

/-- In an indexed sorted book the resting identifiers are pairwise distinct. -/
theorem LevelsOK.nodup_book {s : Side} {B : Book P} {oi : OrderIndex P} (hs : BookSorted s B)
    (h : LevelsOK s B oi) : ((bookOrders B).map (fun o => o.id)).Nodup := by
  induction B with
  | nil => simp [bookOrders]
  | cons kl rest ih =>
    obtain ⟨bp, L⟩ := kl
    rw [bookOrders_cons, List.map_append, List.nodup_append]
    refine ⟨(h (bp, L) (List.mem_cons_self _ _)).nodup_ids,
      ih hs.tail (fun kl hkl => h kl (List.mem_cons_of_mem _ hkl)), ?_⟩
    intro id h1 h2
    obtain ⟨x, hx, rfl⟩ := List.mem_map.mp h1
    obtain ⟨y, hy, hxy⟩ := List.mem_map.mp h2
    exact h.head_disjoint hs y hy x hx hxy.symm

/-- The orders of a level sit at consecutive positions of the matching order of
the book. -/
theorem bookOrders_position {B : Book P} {kl : P × PriceLevel P} (hkl : kl ∈ B) :
    ∃ n : Nat, ∀ (i : Nat) (x : Order P), kl.2[i]? = some x →
      (bookOrders B)[n + i]? = some x := by
  obtain ⟨pre, post, rfl⟩ := List.append_of_mem hkl
  refine ⟨(bookOrders pre).length, ?_⟩
  intro i x hx
  have hsplit : bookOrders (pre ++ kl :: post) =
      bookOrders pre ++ (kl.2 ++ bookOrders post) := by
    simp [bookOrders]
  rw [hsplit, List.getElem?_append_right (Nat.le_add_right _ _)]
  have hi : i < kl.2.length := (List.getElem?_eq_some.mp hx).1
  rw [Nat.add_sub_cancel_left, List.getElem?_append_left hi]
  exact hx

theorem prefix_getElem? {α : Type} {l₁ l₂ : List α} (h : l₁ <+: l₂) {i : Nat}
    (hi : i < l₁.length) : l₂[i]? = l₁[i]? := by
  obtain ⟨t, rfl⟩ := h
  exact List.getElem?_append_left hi

theorem nodup_getElem?_inj {α : Type} {l : List α} (h : l.Nodup) {i j : Nat} {x : α}
    (hi : l[i]? = some x) (hj : l[j]? = some x) : i = j := by
  rw [List.nodup_iff_getElem?_ne_getElem?] at h
  have hil : i < l.length := (List.getElem?_eq_some.mp hi).1
  have hjl : j < l.length := (List.getElem?_eq_some.mp hj).1
  rcases Nat.lt_trichotomy i j with hlt | heq | hgt
  · exact absurd (hi.trans hj.symm) (h i j hlt hjl)
  · exact heq
  · exact absurd (hj.trans hi.symm) (h j i hgt hil)

/-- Time priority for the book of one side: in a sorted, indexed book whose
levels are in arrival order, a trade made by a resting order comes after a
trade made by each older order at the same key. -/
theorem matchLoop_time_priority (crosses : Order P → P → Bool) (s : Side) (st : List Nat)
    (B : Book P) (oi : OrderIndex P) (inc : Order P)
    (hwf : BookWF s B) (hok : LevelsOK s B oi) (htime : ∀ kl ∈ B, LevelTimed st kl.2)
    (a b : Order P) (ha : a ∈ bookOrders B) (hb : b ∈ bookOrders B)
    (hprice : a.price = b.price) (hlt : a.timestamp < b.timestamp)
    (j : Nat) (t : Trade P) (hj : (matchLoop crosses inc B oi []).trades[j]? = some t)
    (hmaker : t.maker = b.id) :
    ∃ i t', i < j ∧ (matchLoop crosses inc B oi []).trades[i]? = some t' ∧ t'.maker = a.id := by
  obtain ⟨T', e1, _, p1⟩ := matchLoop_trades crosses B inc oi []
  simp only [List.nil_append] at e1
  rw [e1] at hj ⊢
  -- the makers of the trades are a prefix of the resting identifiers
  have hpre : T'.map (fun t => t.maker) <+: (bookOrders B).map (fun o => o.id) := by
    have := p1.map Prod.fst
    rwa [bookMakers_fst, List.map_map] at this
  have hnd := hok.nodup_book hwf.1
  -- `a` and `b` are in the same level, `a` in front of `b`
  obtain ⟨klA, hklA, haL⟩ := mem_bookOrders.mp ha
  obtain ⟨klB, hklB, hbL⟩ := mem_bookOrders.mp hb
  have hkey : klA.1 = klB.1 := by
    rw [← ((hwf.2 klA hklA).2 a haL).2.1, ← ((hwf.2 klB hklB).2 b hbL).2.1]
    exact hprice
  have hsame : klA.2 = klB.2 := by
    have h1 := mapFind_of_mem hwf.1 (show (klA.1, klA.2) ∈ B from hklA)
    have h2 := mapFind_of_mem hwf.1 (show (klB.1, klB.2) ∈ B from hklB)
    rw [hkey, h2] at h1
    exact (Option.some.inj h1).symm
  rw [← hsame] at hbL
  obtain ⟨ia, hia⟩ := List.mem_iff_getElem?.mp haL
  obtain ⟨ib, hib⟩ := List.mem_iff_getElem?.mp hbL
  have hial : ia < klA.2.length := (List.getElem?_eq_some.mp hia).1
  have hibl : ib < klA.2.length := (List.getElem?_eq_some.mp hib).1
  have hpw := (htime klA hklA).1
  rw [List.pairwise_map, List.pairwise_iff_getElem] at hpw
  have hea : klA.2[ia] = a := (List.getElem?_eq_some.mp hia).2
  have heb : klA.2[ib] = b := (List.getElem?_eq_some.mp hib).2
  have hiab : ia < ib := by
    rcases Nat.lt_trichotomy ia ib with h | h | h
    · exact h
    · exfalso
      subst h
      rw [hea] at heb
      subst heb
      exact lt_irrefl _ hlt
    · exfalso
      have := hpw ib ia hibl hial h
      rw [hea, heb] at this
      exact lt_asymm hlt this
  obtain ⟨n, hn⟩ := bookOrders_position hklA
  have hpa : ((bookOrders B).map (fun o => o.id))[n + ia]? = some a.id := by
    rw [List.getElem?_map, hn ia a hia]
    rfl
  have hpb : ((bookOrders B).map (fun o => o.id))[n + ib]? = some b.id := by
    rw [List.getElem?_map, hn ib b hib]
    rfl
  -- the trade of `b` is at the position of `b`
  have hjl : j < T'.length := (List.getElem?_eq_some.mp hj).1
  have hjm : ((bookOrders B).map (fun o => o.id))[j]? = some b.id := by
    rw [prefix_getElem? hpre (by simpa using hjl), List.getElem?_map, hj]
    simp [hmaker]
  have hjeq : j = n + ib := nodup_getElem?_inj hnd hjm hpb
  have hil : n + ia < T'.length := by omega
  refine ⟨n + ia, T'[n + ia], by omega, List.getElem?_eq_getElem hil, ?_⟩
  have h3 := prefix_getElem? hpre (show n + ia < (T'.map (fun t => t.maker)).length by
    simpa using hil)
  rw [hpa, List.getElem?_map, List.getElem?_eq_getElem hil] at h3
  simpa using h3.symm

end TimePriority

/-! ## Resting identifiers along a run -/

section RestingIds

variable {P : Type} [LinearOrder P] [Zero P]

/-- The maker of every trade of `addOrder` rested on the opposite side. -/
theorem addOrder_maker_rests (e : MatchingEngine P) (o : Order P) :
    ∀ t ∈ (addOrder e o).2, ∃ m ∈ bookOrders (bookOf e o.side.opposite), m.id = t.maker := by
  intro t ht
  rw [addOrder_trades] at ht
  obtain ⟨T', e1, _, p1⟩ := matchLoop_trades (crossesOn o.side.opposite)
    (bookOf e o.side.opposite) o e.orderIndex []
  have e2 : (addOrderMatch e o).trades = T' := by simpa [addOrderMatch] using e1
  rw [e2] at ht
  have hmem : (t.maker, t.price) ∈ bookMakers (bookOf e o.side.opposite) :=
    p1.subset (List.mem_map.mpr ⟨t, ht, rfl⟩)
  obtain ⟨kl, hkl, m, hm, h1, _⟩ := mem_bookMakers.mp hmem
  exact ⟨m, mem_bookOrders.mpr ⟨kl, hkl, hm⟩, h1⟩

/-- An order resting after `addOrder(o)` has the identifier of an order that
rested on that side before, or the identifier of `o`. -/
theorem addOrder_orders (e : MatchingEngine P) (o : Order P) (hwf : EngineWF e) (s : Side) :
    ∀ x ∈ bookOrders (bookOf (addOrder e o).1 s),
      (∃ y ∈ bookOrders (bookOf e s), y.id = x.id) ∨ x.id = o.id := by
  have hafter : ∀ x ∈ bookOrders (bookOf (afterMatch e o) s),
      ∃ y ∈ bookOrders (bookOf e s), y.id = x.id := by
    intro x hx
    rcases Side.eq_or_opposite o.side s with hs | hs
    · subst hs
      rw [afterMatch_book_same] at hx
      exact ⟨x, hx, rfl⟩
    · subst hs
      rw [afterMatch_book_opposite] at hx
      obtain ⟨y, hy, hk⟩ := matchLoop_orders _ _ _ _ _ x hx
      exact ⟨y, hy, congrArg (fun q => q.1) hk⟩
  intro x hx
  rw [addOrder_steps] at hx
  by_cases hq : o.quantity > 0
  · simp only [hq, if_true] at hx
    have hwf1 := afterMatch_wf e o hwf
    obtain ⟨k, j, hr⟩ := exists_restsAt (insertOrder_wf _ o hwf1 hq) hx
    rcases (restsAt_insertOrder _ o hwf1 s k j x).mp hr with h1 | ⟨_, _, _, h4⟩
    · exact Or.inl (hafter x h1.mem)
    · exact Or.inr (by rw [h4])
  · simp only [hq, if_false] at hx
    exact Or.inl (hafter x hx)

end RestingIds

/-! ## Executed quantities -/

section Quantities

variable {P : Type} [LinearOrder P] [Zero P]

theorem BookSorted.keys_nodup {s : Side} {B : Book P} (hs : BookSorted s B) :
    (B.map Prod.fst).Nodup := by
  rw [List.Nodup, List.pairwise_map]
  exact List.Pairwise.imp (fun h => keyBefore_ne h) hs

/-- Every trade of the inner loop has a positive quantity when the orders of the
level have one. -/
theorem matchLevel_trades_pos (bp : P) (L : PriceLevel P) :
    ∀ (inc : Order P) (oi : OrderIndex P) (T : List (Trade P)),
      (∀ x ∈ L, 0 < x.quantity) →
      ∀ t ∈ (matchLevel bp inc L oi T).trades, t ∈ T ∨ 0 < t.quantity := by
  induction L with
  | nil =>
    intro inc oi T _ t ht
    exact Or.inl ht
  | cons top rest ih =>
    intro inc oi T hL t ht
    rw [matchLevel_cons] at ht
    have htop : 0 < min inc.quantity top.quantity → ∀ x ∈
        T ++ [(⟨inc.id, top.id, bp, min inc.quantity top.quantity⟩ : Trade P)],
        x ∈ T ∨ 0 < x.quantity := by
      intro hpos x hx
      rcases List.mem_append.mp hx with h | h
      · exact Or.inl h
      · simp only [List.mem_singleton] at h
        subst h
        exact Or.inr hpos
    by_cases hq : inc.quantity > 0
    · have hpos : 0 < min inc.quantity top.quantity :=
        lt_min hq (hL top (List.mem_cons_self _ _))
      by_cases hz : top.quantity - min inc.quantity top.quantity = 0
      · rw [if_pos hq, if_pos hz] at ht
        rcases ih _ _ _ (fun x hx => hL x (List.mem_cons_of_mem _ hx)) t ht with h | h
        · exact htop hpos t h
        · exact Or.inr h
      · rw [if_pos hq, if_neg hz] at ht
        exact htop hpos t ht
    · rw [if_neg hq] at ht
      exact Or.inl ht

theorem matchLoop_trades_pos (crosses : Order P → P → Bool) (s : Side) (B : Book P) :
    ∀ (inc : Order P) (oi : OrderIndex P) (T : List (Trade P)), BookWF s B →
      ∀ t ∈ (matchLoop crosses inc B oi T).trades, t ∈ T ∨ 0 < t.quantity := by
  induction B with
  | nil =>
    intro inc oi T _ t ht
    exact Or.inl ht
  | cons kl rest ih =>
    obtain ⟨bp, L⟩ := kl
    intro inc oi T h t ht
    have hL : ∀ x ∈ L, 0 < x.quantity :=
      fun x hx => ((h.2 (bp, L) (List.mem_cons_self _ _)).2 x hx).2.2
    rcases matchLoop_cases crosses inc bp L rest oi T with h1 | ⟨_, h1⟩ | ⟨_, h1⟩
    · rw [h1] at ht
      exact Or.inl ht
    · rw [h1] at ht
      rcases ih _ _ _ ⟨h.1.tail, fun kl hkl => h.2 kl (List.mem_cons_of_mem _ hkl)⟩ t ht
        with h2 | h2
      · exact matchLevel_trades_pos bp L inc oi T hL t h2
      · exact Or.inr h2
    · rw [h1] at ht
      exact matchLevel_trades_pos bp L inc oi T hL t ht

theorem matchLoop_zero (crosses : Order P → P → Bool) (inc : Order P) (B : Book P)
    (oi : OrderIndex P) (T : List (Trade P)) (hq : inc.quantity = 0) :
    matchLoop crosses inc B oi T = ⟨inc, B, oi, T⟩ := by
  cases B with
  | nil => rfl
  | cons kl rest =>
    obtain ⟨bp, L⟩ := kl
    rw [matchLoop_cons, if_neg (by omega)]

theorem addOrder_zero (e : MatchingEngine P) (o : Order P) (hq : o.quantity = 0) :
    addOrder e o = (e, []) := by
  rw [addOrder_steps, if_neg (by omega)]
  have hm : addOrderMatch e o = ⟨o, bookOf e o.side.opposite, e.orderIndex, []⟩ :=
    matchLoop_zero _ o _ _ _ hq
  simp only [afterMatch, hm]
  obtain ⟨bids, asks, oi⟩ := e
  cases hs : o.side <;> simp [setBook, bookOf, Side.opposite]

theorem reach_single_buy (p : P) (q : Nat) (a : OrderId) (ta : Nat) (hq : 0 < q) :
    reach [Op.add (⟨a, Side.BUY, p, q, ta⟩ : Order P)] =
      ⟨[(p, [⟨a, Side.BUY, p, q, ta⟩])], [], [(a, ⟨Side.BUY, p, 0⟩)]⟩ := by
  simp [reach, run, step, addOrder, matchOrderAsks, matchLoop, hq, mapSubscript_nil, mapSubscript_cons, mapFind_nil, mapFind_cons,
    mapAssign_nil, mapAssign_cons, indexAssign, MatchingEngine.empty]

theorem addOrder_sell_exact (p : P) (q : Nat) (a b : OrderId) (ta tb : Nat) (hq : 0 < q) :
    addOrder (⟨[(p, [⟨a, Side.BUY, p, q, ta⟩])], [], [(a, ⟨Side.BUY, p, 0⟩)]⟩ : MatchingEngine P)
        ⟨b, Side.SELL, p, q, tb⟩ =
      (⟨[], [(p, [⟨b, Side.SELL, p, q, tb⟩])], [(b, ⟨Side.SELL, p, 0⟩)]⟩, [⟨b, a, p, q⟩]) := by
  simp [addOrder, matchOrderBids, matchLoop, matchLevel, hq, mapSubscript_nil, mapSubscript_cons, mapFind_nil, mapFind_cons,
    mapAssign_nil, mapAssign_cons, indexAssign, indexErase, reindexFrom, reindexLoop]

/-- The inner loop only appends to the trade vector it is given. -/
theorem matchLevel_acc (bp : P) (L : PriceLevel P) :
    ∀ (inc : Order P) (oi : OrderIndex P) (T : List (Trade P)),
      matchLevel bp inc L oi T =
        ⟨(matchLevel bp inc L oi []).incoming, (matchLevel bp inc L oi []).level,
          (matchLevel bp inc L oi []).orderIndex, T ++ (matchLevel bp inc L oi []).trades⟩ := by
  induction L with
  | nil =>
    intro inc oi T
    simp [matchLevel_nil]
  | cons top rest ih =>
    intro inc oi T
    rw [matchLevel_cons, matchLevel_cons]
    by_cases hq : inc.quantity > 0
    · by_cases hz : top.quantity - min inc.quantity top.quantity = 0
      · rw [if_pos hq, if_pos hz, if_pos hq, if_pos hz, ih _ _ (T ++ _), ih _ _ ([] ++ _)]
        simp
      · rw [if_pos hq, if_neg hz, if_pos hq, if_neg hz]
        simp
    · rw [if_neg hq, if_neg hq]
      simp

/-- The outer loop only appends to the trade vector it is given. -/
theorem matchLoop_acc (crosses : Order P → P → Bool) (B : Book P) :
    ∀ (inc : Order P) (oi : OrderIndex P) (T : List (Trade P)),
      matchLoop crosses inc B oi T =
        ⟨(matchLoop crosses inc B oi []).incoming, (matchLoop crosses inc B oi []).book,
          (matchLoop crosses inc B oi []).orderIndex,
          T ++ (matchLoop crosses inc B oi []).trades⟩ := by
  induction B with
  | nil =>
    intro inc oi T
    simp [matchLoop_nil]
  | cons kl rest ih =>
    obtain ⟨bp, L⟩ := kl
    intro inc oi T
    have hacc := matchLevel_acc bp L inc oi T
    simp only [matchLoop_cons]
    by_cases hq : inc.quantity > 0
    · by_cases hc : crosses inc bp = true
      · simp only [hq, hc, if_true, Bool.not_true, Bool.false_eq_true, if_false]
        rw [hacc]
        by_cases he : (matchLevel bp inc L oi []).level.isEmpty
        · simp only [he, if_true]
          rw [ih _ _ (T ++ _), ih _ _ (matchLevel bp inc L oi []).trades]
          simp
        · simp [he]
      · simp [hq, hc]
    · simp [hq]

theorem matchLevel_zero (bp : P) (inc : Order P) (L : PriceLevel P) (oi : OrderIndex P)
    (T : List (Trade P)) (hq : inc.quantity = 0) :
    matchLevel bp inc L oi T = ⟨inc, L, oi, T⟩ := by
  cases L with
  | nil => rfl
  | cons top rest => rw [matchLevel_cons, if_neg (by omega)]

theorem tradedQuantity_append (T T' : List (Trade P)) :
    tradedQuantity (T ++ T') = tradedQuantity T + tradedQuantity T' := by
  simp [tradedQuantity]

theorem levelQuantity_cons (x : Order P) (L : List (Order P)) :
    levelQuantity (x :: L) = x.quantity + levelQuantity L := by
  simp [levelQuantity]

/-- Conservation in the inner loop: what is traded is taken from the copy of the
incoming order and from the level. -/
theorem matchLevel_conserve (bp : P) (L : PriceLevel P) :
    ∀ (inc : Order P) (oi : OrderIndex P),
      tradedQuantity (matchLevel bp inc L oi []).trades +
          (matchLevel bp inc L oi []).incoming.quantity = inc.quantity ∧
      tradedQuantity (matchLevel bp inc L oi []).trades +
          levelQuantity (matchLevel bp inc L oi []).level = levelQuantity L := by
  induction L with
  | nil =>
    intro inc oi
    simp [matchLevel_nil, tradedQuantity, levelQuantity]
  | cons top rest ih =>
    intro inc oi
    rw [matchLevel_cons]
    by_cases hq : inc.quantity > 0
    · by_cases hz : top.quantity - min inc.quantity top.quantity = 0
      · rw [if_pos hq, if_pos hz, matchLevel_acc]
        obtain ⟨h1, h2⟩ := ih { inc with quantity := inc.quantity - min inc.quantity top.quantity }
          (reindexFrom rest 0 (indexErase oi top.id))
        simp only [tradedQuantity_append, levelQuantity_cons] at h1 h2 ⊢
        simp only [tradedQuantity, List.nil_append, List.map_cons, List.map_nil, List.sum_cons,
          List.sum_nil] at h1 h2 ⊢
        have hmin : min inc.quantity top.quantity ≤ inc.quantity := min_le_left _ _
        have hmin' : min inc.quantity top.quantity ≤ top.quantity := min_le_right _ _
        constructor <;> omega
      · rw [if_pos hq, if_neg hz]
        simp only [tradedQuantity, levelQuantity, List.nil_append, List.map_cons, List.map_nil,
          List.sum_cons, List.sum_nil]
        have hmin : min inc.quantity top.quantity ≤ inc.quantity := min_le_left _ _
        have hmin' : min inc.quantity top.quantity ≤ top.quantity := min_le_right _ _
        constructor <;> omega
    · rw [if_neg hq]
      simp [tradedQuantity]

/-- The three ways one round of the outer loop of `matchOrder` ends, for an
empty trade vector: it stops before the first level, it empties the first level
and goes on with the rest, or it stops inside the first level. -/
theorem matchLoop_cases0 (crosses : Order P → P → Bool) (inc : Order P) (bp : P)
    (L : PriceLevel P) (rest : Book P) (oi : OrderIndex P) :
    ((inc.quantity = 0 ∨ crosses inc bp = false) ∧
      matchLoop crosses inc ((bp, L) :: rest) oi [] = ⟨inc, (bp, L) :: rest, oi, []⟩) ∨
    (0 < inc.quantity ∧ crosses inc bp = true ∧ (matchLevel bp inc L oi []).level = [] ∧
      matchLoop crosses inc ((bp, L) :: rest) oi [] =
        ⟨(matchLoop crosses (matchLevel bp inc L oi []).incoming rest
            (matchLevel bp inc L oi []).orderIndex []).incoming,
          (matchLoop crosses (matchLevel bp inc L oi []).incoming rest
            (matchLevel bp inc L oi []).orderIndex []).book,
          (matchLoop crosses (matchLevel bp inc L oi []).incoming rest
            (matchLevel bp inc L oi []).orderIndex []).orderIndex,
          (matchLevel bp inc L oi []).trades ++
            (matchLoop crosses (matchLevel bp inc L oi []).incoming rest
              (matchLevel bp inc L oi []).orderIndex []).trades⟩) ∨
    (0 < inc.quantity ∧ crosses inc bp = true ∧ (matchLevel bp inc L oi []).level ≠ [] ∧
      matchLoop crosses inc ((bp, L) :: rest) oi [] =
        ⟨(matchLevel bp inc L oi []).incoming, (bp, (matchLevel bp inc L oi []).level) :: rest,
          (matchLevel bp inc L oi []).orderIndex, (matchLevel bp inc L oi []).trades⟩) := by
  rw [matchLoop_cons]
  by_cases hq : inc.quantity > 0
  · by_cases hc : crosses inc bp = true
    · by_cases he : (matchLevel bp inc L oi []).level = []
      · right; left
        refine ⟨hq, hc, he, ?_⟩
        rw [if_pos hq, if_neg (by simp [hc]), if_pos (by simp [he]), matchLoop_acc]
      · right; right
        refine ⟨hq, hc, he, ?_⟩
        rw [if_pos hq, if_neg (by simp [hc]), if_neg (by simpa using he)]
    · left
      refine ⟨Or.inr (by simpa using hc), ?_⟩
      rw [if_pos hq, if_pos (by simpa using hc)]
  · left
    refine ⟨Or.inl (by omega), ?_⟩
    rw [if_neg hq]

/-- Conservation in `matchOrder`: what is traded is taken from the copy of the
incoming order. -/
theorem matchLoop_conserve (crosses : Order P → P → Bool) (B : Book P) :
    ∀ (inc : Order P) (oi : OrderIndex P),
      tradedQuantity (matchLoop crosses inc B oi []).trades +
        (matchLoop crosses inc B oi []).incoming.quantity = inc.quantity := by
  induction B with
  | nil =>
    intro inc oi
    simp [matchLoop_nil, tradedQuantity]
  | cons kl rest ih =>
    obtain ⟨bp, L⟩ := kl
    intro inc oi
    obtain ⟨c1, _⟩ := matchLevel_conserve bp L inc oi
    rcases matchLoop_cases0 crosses inc bp L rest oi with ⟨_, h⟩ | ⟨_, _, _, h⟩ | ⟨_, _, _, h⟩
    · rw [h]
      simp [tradedQuantity]
    · rw [h]
      have := ih (matchLevel bp inc L oi []).incoming (matchLevel bp inc L oi []).orderIndex
      simp only [tradedQuantity_append]
      omega
    · rw [h]
      exact c1

/-- The shape of the trades of the inner loop: the first `n` orders of the level
are filled whole and leave the level, each by one trade of its quantity; at most
one more trade follows, which leaves its maker at the head of the level and the
incoming order with nothing. -/
theorem matchLevel_fills (bp : P) (L : PriceLevel P) :
    ∀ (inc : Order P) (oi : OrderIndex P),
      ∃ n, n ≤ L.length ∧
        (matchLevel bp inc L oi []).level.map Order.key = (L.drop n).map Order.key ∧
        (∀ (i : Nat) (t : Trade P), i < n → (matchLevel bp inc L oi []).trades[i]? = some t →
          ∃ x, L[i]? = some x ∧ t.quantity = x.quantity) ∧
        ((matchLevel bp inc L oi []).trades.length = n ∨
          ((matchLevel bp inc L oi []).trades.length = n + 1 ∧
            (matchLevel bp inc L oi []).incoming.quantity = 0 ∧
            (matchLevel bp inc L oi []).level ≠ [])) := by
  induction L with
  | nil =>
    intro inc oi
    exact ⟨0, by simp [matchLevel_nil]⟩
  | cons top rest ih =>
    intro inc oi
    rw [matchLevel_cons]
    by_cases hq : inc.quantity > 0
    · by_cases hz : top.quantity - min inc.quantity top.quantity = 0
      · rw [if_pos hq, if_pos hz, matchLevel_acc]
        obtain ⟨n, hn, hk, hfill, hlen⟩ :=
          ih { inc with quantity := inc.quantity - min inc.quantity top.quantity }
            (reindexFrom rest 0 (indexErase oi top.id))
        refine ⟨n + 1, by simpa using hn, by simpa using hk, ?_, ?_⟩
        · intro i t hi ht
          cases i with
          | zero =>
            simp only [List.nil_append, List.singleton_append, List.getElem?_cons_zero,
              Option.some.injEq] at ht
            refine ⟨top, by simp, ?_⟩
            rw [← ht]
            simp only
            omega
          | succ i =>
            simp only [List.nil_append, List.singleton_append, List.getElem?_cons_succ] at ht
            obtain ⟨x, hx, hxq⟩ := hfill i t (by omega) ht
            exact ⟨x, by simpa using hx, hxq⟩
        · simp only [List.nil_append, List.singleton_append, List.length_cons]
          rcases hlen with h | ⟨h1, h2, h3⟩
          · exact Or.inl (by omega)
          · exact Or.inr ⟨by omega, h2, h3⟩
      · rw [if_pos hq, if_neg hz]
        refine ⟨0, by simp, by simp [Order.key], fun i t hi _ => absurd hi (by omega), ?_⟩
        right
        refine ⟨by simp, ?_, by simp⟩
        exact matchLevel_exit inc.quantity top.quantity hz
    · rw [if_neg hq]
      exact ⟨0, by simp, by simp, fun i t hi _ => absurd hi (by omega), Or.inl (by simp)⟩

/-- The shape of the trades of `matchOrder`: the first `n` resting orders in
matching order are filled whole and leave the book, each by one trade of its
quantity; at most one more trade follows, which leaves the incoming order with
nothing. -/
theorem matchLoop_fills (crosses : Order P → P → Bool) (B : Book P) :
    ∀ (inc : Order P) (oi : OrderIndex P),
      ∃ n,
        (bookOrders (matchLoop crosses inc B oi []).book).map Order.key =
          ((bookOrders B).drop n).map Order.key ∧
        (∀ (i : Nat) (t : Trade P), i < n → (matchLoop crosses inc B oi []).trades[i]? = some t →
          ∃ x, (bookOrders B)[i]? = some x ∧ t.quantity = x.quantity) ∧
        ((matchLoop crosses inc B oi []).trades.length = n ∨
          ((matchLoop crosses inc B oi []).trades.length = n + 1 ∧
            (matchLoop crosses inc B oi []).incoming.quantity = 0)) := by
  induction B with
  | nil =>
    intro inc oi
    exact ⟨0, by simp [matchLoop_nil]⟩
  | cons kl rest ih =>
    obtain ⟨bp, L⟩ := kl
    intro inc oi
    obtain ⟨n0, hn0, hk0, hfill0, hlen0⟩ := matchLevel_fills bp L inc oi
    rcases matchLoop_cases0 crosses inc bp L rest oi with
      ⟨_, h⟩ | ⟨_, _, he, h⟩ | ⟨_, _, he, h⟩
    · rw [h]
      exact ⟨0, by simp, fun i t hi _ => absurd hi (by omega), Or.inl (by simp)⟩
    · rw [h]
      obtain ⟨n, hk, hfill, hlen⟩ := ih (matchLevel bp inc L oi []).incoming
        (matchLevel bp inc L oi []).orderIndex
      have hn0' : n0 = L.length := by
        rw [he] at hk0
        have : L.drop n0 = [] := by simpa using hk0.symm
        have := List.drop_eq_nil_iff.mp this
        omega
      have hl0 : (matchLevel bp inc L oi []).trades.length = L.length := by
        rcases hlen0 with h1 | ⟨_, _, h3⟩
        · omega
        · exact absurd he h3
      refine ⟨L.length + n, ?_, ?_, ?_⟩
      · simp only [bookOrders_cons, List.drop_append]
        exact hk
      · intro i t hi ht
        simp only [bookOrders_cons]
        by_cases hil : i < L.length
        · rw [List.getElem?_append_left (by omega)] at ht
          rw [List.getElem?_append_left hil]
          exact hfill0 i t (by omega) ht
        · rw [List.getElem?_append_right (by omega), hl0] at ht
          rw [List.getElem?_append_right (by omega)]
          exact hfill (i - L.length) t (by omega) ht
      · simp only [List.length_append, hl0]
        rcases hlen with h1 | ⟨h1, h2⟩
        · exact Or.inl (by omega)
        · exact Or.inr ⟨by omega, h2⟩
    · rw [h]
      refine ⟨n0, ?_, ?_, ?_⟩
      · simp only [bookOrders_cons, List.map_append, List.drop_append_of_le_length hn0, hk0]
      · intro i t hi ht
        simp only [bookOrders_cons]
        rw [List.getElem?_append_left (by omega)]
        exact hfill0 i t hi ht
      · rcases hlen0 with h1 | ⟨h1, h2, _⟩
        · exact Or.inl h1
        · exact Or.inr ⟨h1, h2⟩

theorem Order.key_id (o : Order P) : o.id = o.key.1 := rfl

/-- The makers of the trades of `addOrder` are the first resting identifiers of
the opposite side in matching order. -/
theorem addOrder_makers_prefix (e : MatchingEngine P) (o : Order P) :
    (addOrder e o).2.map (fun t => t.maker) <+:
      (bookOrders (bookOf e o.side.opposite)).map (fun x => x.id) := by
  rw [addOrder_trades]
  obtain ⟨T', e1, _, p1⟩ := matchLoop_trades (crossesOn o.side.opposite)
    (bookOf e o.side.opposite) o e.orderIndex []
  have e2 : (addOrderMatch e o).trades = T' := by simpa [addOrderMatch] using e1
  rw [e2]
  have := p1.map Prod.fst
  rwa [bookMakers_fst, List.map_map] at this

/-- The shape of the trades of `addOrder` in a consistent engine: the makers of
the first `n` trades are filled whole and rest on the opposite side no more; at
most one more trade follows, and then the whole incoming quantity is traded. -/
theorem addOrder_fills (e : MatchingEngine P) (o : Order P) (hwf : EngineWF e)
    (hidx : IndexInv e) :
    ∃ n,
      (∀ (i : Nat) (t : Trade P), i < n → (addOrder e o).2[i]? = some t →
        (∃ m ∈ bookOrders (bookOf e o.side.opposite), m.id = t.maker ∧ t.quantity = m.quantity) ∧
        ∀ x ∈ bookOrders (bookOf (addOrder e o).1 o.side.opposite), x.id ≠ t.maker) ∧
      ((addOrder e o).2.length = n ∨
        ((addOrder e o).2.length = n + 1 ∧ tradedQuantity (addOrder e o).2 = o.quantity)) := by
  have hpre := addOrder_makers_prefix e o
  have hnd := (hidx.levelsOK hwf o.side.opposite).nodup_book (hwf _).1
  rw [addOrder_opposite_book]
  rw [addOrder_trades] at hpre ⊢
  obtain ⟨n, hk, hfill, hlen⟩ := matchLoop_fills (crossesOn o.side.opposite)
    (bookOf e o.side.opposite) o e.orderIndex
  have hcons := matchLoop_conserve (crossesOn o.side.opposite) (bookOf e o.side.opposite) o
    e.orderIndex
  refine ⟨n, ?_, ?_⟩
  · intro i t hi ht
    obtain ⟨m, hm, hq⟩ := hfill i t hi ht
    have hil : i < (addOrderMatch e o).trades.length := (List.getElem?_eq_some.mp ht).1
    -- the maker of trade `i` is resting order `i`
    have hmaker : ((bookOrders (bookOf e o.side.opposite)).map (fun x => x.id))[i]? =
        some t.maker := by
      rw [prefix_getElem? hpre (by simpa using hil), List.getElem?_map, ht]
      rfl
    have hmid : m.id = t.maker := by
      rw [List.getElem?_map, hm] at hmaker
      simpa using hmaker
    refine ⟨⟨m, List.getElem?_mem hm, hmid, hq⟩, ?_⟩
    intro x hx hxid
    have hxk : x.key ∈ ((bookOrders (bookOf e o.side.opposite)).drop n).map Order.key := by
      have : x.key ∈ (bookOrders (addOrderMatch e o).book).map Order.key :=
        List.mem_map.mpr ⟨x, hx, rfl⟩
      simpa [addOrderMatch, hk] using this
    obtain ⟨y, hy, hyk⟩ := List.mem_map.mp hxk
    obtain ⟨j, hj⟩ := List.mem_iff_getElem?.mp hy
    rw [List.getElem?_drop] at hj
    have hyid : y.id = t.maker := by
      rw [← hxid]
      exact congrArg (fun q => q.1) hyk
    have hj' : ((bookOrders (bookOf e o.side.opposite)).map (fun x => x.id))[n + j]? =
        some t.maker := by
      rw [List.getElem?_map, hj]
      simp [hyid]
    have := nodup_getElem?_inj hnd hmaker hj'
    omega
  · rcases hlen with h | ⟨h1, h2⟩
    · exact Or.inl h
    · right
      refine ⟨h1, ?_⟩
      have : (addOrderMatch e o).incoming.quantity = 0 := h2
      simp only [addOrderMatch] at this ⊢
      omega

/-- `matchOrder` on a crossing order smaller than the head of the best level:
one trade, and the head keeps the difference. -/
theorem matchLoop_partial (crosses : Order P → P → Bool) (inc h : Order P) (k : P)
    (rest : PriceLevel P) (tail : Book P) (oi : OrderIndex P)
    (hc : crosses inc k = true) (hq : 0 < inc.quantity) (hlt : inc.quantity < h.quantity) :
    matchLoop crosses inc ((k, h :: rest) :: tail) oi [] =
      ⟨{ inc with quantity := 0 },
        (k, { h with quantity := h.quantity - inc.quantity } :: rest) :: tail, oi,
        [⟨inc.id, h.id, k, inc.quantity⟩]⟩ := by
  have hmin : min inc.quantity h.quantity = inc.quantity := Nat.min_eq_left (le_of_lt hlt)
  have hne : ¬ h.quantity - inc.quantity = 0 := by omega
  have hl : matchLevel k inc (h :: rest) oi [] =
      ⟨{ inc with quantity := 0 }, { h with quantity := h.quantity - inc.quantity } :: rest, oi,
        [⟨inc.id, h.id, k, inc.quantity⟩]⟩ := by
    rw [matchLevel_cons, if_pos hq, hmin, if_neg hne]
    simp
  rw [matchLoop_cons, if_pos hq, if_neg (by simp [hc]), hl]
  simp

/-- `matchOrder` on a crossing order of exactly the quantity of the head of the
best level: one trade, and the head leaves the level. -/
theorem matchLoop_exact (crosses : Order P → P → Bool) (inc h : Order P) (k : P)
    (rest : PriceLevel P) (tail : Book P) (oi : OrderIndex P)
    (hc : crosses inc k = true) (hq : 0 < inc.quantity) (heq : inc.quantity = h.quantity) :
    matchLoop crosses inc ((k, h :: rest) :: tail) oi [] =
      ⟨{ inc with quantity := 0 },
        if rest.isEmpty then tail else (k, rest) :: tail,
        reindexFrom rest 0 (indexErase oi h.id),
        [⟨inc.id, h.id, k, inc.quantity⟩]⟩ := by
  have hmin : min inc.quantity h.quantity = inc.quantity := by rw [heq]; exact Nat.min_self _
  have hz : h.quantity - inc.quantity = 0 := by omega
  have hl : matchLevel k inc (h :: rest) oi [] =
      ⟨{ inc with quantity := 0 }, rest, reindexFrom rest 0 (indexErase oi h.id),
        [⟨inc.id, h.id, k, inc.quantity⟩]⟩ := by
    rw [matchLevel_cons, if_pos hq, hmin, if_pos hz, matchLevel_zero _ _ _ _ _ (by simp)]
    simp
  rw [matchLoop_cons, if_pos hq, if_neg (by simp [hc]), hl]
  by_cases he : rest.isEmpty
  · simp only [he, if_true]
    rw [matchLoop_zero _ _ _ _ _ (by simp)]
  · simp [he]

end Quantities

/-! ## The claims of the specification -/

section Claims

variable {P : Type} [LinearOrder P] [Zero P]

/-- C1 (quantity conservation), evaluated on the code: after `BUY 10@100`
(id 1), `addOrder(SELL 10@100, id 2)` returns one trade of quantity 10 and still
inserts the incoming order with its full quantity 10, so the traded quantity 10
is not `Q - r = 10 - 10`. -/
theorem C1_quantity_not_conserved :
    (addOrder (reach [Op.add (⟨1, Side.BUY, 100, 10, 1⟩ : Order Int)])
        ⟨2, Side.SELL, 100, 10, 2⟩).2 = [⟨2, 1, 100, 10⟩] ∧
    (addOrder (reach [Op.add (⟨1, Side.BUY, 100, 10, 1⟩ : Order Int)])
        ⟨2, Side.SELL, 100, 10, 2⟩).1.asks = [(100, [⟨2, Side.SELL, 100, 10, 2⟩])] ∧
    tradedQuantity (addOrder (reach [Op.add (⟨1, Side.BUY, 100, 10, 1⟩ : Order Int)])
        ⟨2, Side.SELL, 100, 10, 2⟩).2 ≠
      10 - restingQuantity (addOrder (reach [Op.add (⟨1, Side.BUY, 100, 10, 1⟩ : Order Int)])
        ⟨2, Side.SELL, 100, 10, 2⟩).1.asks 2 := by
  decide

/-- C2 (no crossed book), evaluated on the code: after `BUY 15@100` (id 1) and
`SELL 5@100` (id 2) the bid of id 1 rests with quantity 10 at 100 and the ask of
id 2 rests with quantity 5 at 100: the book is crossed. -/
theorem C2_book_crossed :
    (reach [Op.add (⟨1, Side.BUY, 100, 15, 1⟩ : Order Int),
        Op.add ⟨2, Side.SELL, 100, 5, 2⟩]).bids = [(100, [⟨1, Side.BUY, 100, 10, 1⟩])] ∧
    (reach [Op.add (⟨1, Side.BUY, 100, 15, 1⟩ : Order Int),
        Op.add ⟨2, Side.SELL, 100, 5, 2⟩]).asks = [(100, [⟨2, Side.SELL, 100, 5, 2⟩])] ∧
    ¬ NoCross (reach [Op.add (⟨1, Side.BUY, 100, 15, 1⟩ : Order Int),
        Op.add ⟨2, Side.SELL, 100, 5, 2⟩]) := by
  decide

/-- C4 (time priority): in every state reached by calls with pairwise distinct
identifiers and strictly increasing timestamps, and for every further
`addOrder(o)`: if `a` and `b` rest on the side opposite to `o` at the same price
and `a` is older than `b`, then every returned trade made by `b` is preceded in
the returned list by a trade made by `a`. -/
theorem C4_time_priority (ops : List (Op P)) (hids : (addedIds ops).Nodup)
    (hts : (addedStamps ops).Pairwise (fun x y => x < y)) (o a b : Order P)
    (ha : a ∈ bookOrders (bookOf (reach ops) o.side.opposite))
    (hb : b ∈ bookOrders (bookOf (reach ops) o.side.opposite))
    (hprice : a.price = b.price) (hlt : a.timestamp < b.timestamp)
    (j : Nat) (t : Trade P) (hj : (addOrder (reach ops) o).2[j]? = some t)
    (hmaker : t.maker = b.id) :
    ∃ i t', i < j ∧ (addOrder (reach ops) o).2[i]? = some t' ∧ t'.maker = a.id := by
  obtain ⟨hwf, hidx, _⟩ := reach_consistent ops hids
  rw [addOrder_trades] at hj ⊢
  exact matchLoop_time_priority (crossesOn o.side.opposite) o.side.opposite (addedStamps ops)
    (bookOf (reach ops) o.side.opposite) (reach ops).orderIndex o (hwf _)
    (hidx.levelsOK hwf _) (reach_timed ops hts _) a b ha hb hprice hlt j t hj hmaker

/-- Two bids at 100 and a `SELL 8@100`: the trade of the younger bid (id 2) is
the second of the list, after the trade of the older bid (id 1). -/
theorem C4_time_priority_witness :
    (addedIds [Op.add (⟨1, Side.BUY, 100, 5, 1⟩ : Order Int),
        Op.add ⟨2, Side.BUY, 100, 5, 2⟩]).Nodup ∧
      (addedStamps [Op.add (⟨1, Side.BUY, 100, 5, 1⟩ : Order Int),
        Op.add ⟨2, Side.BUY, 100, 5, 2⟩]).Pairwise (fun x y => x < y) ∧
      (addOrder (reach [Op.add (⟨1, Side.BUY, 100, 5, 1⟩ : Order Int),
        Op.add ⟨2, Side.BUY, 100, 5, 2⟩]) ⟨3, Side.SELL, 100, 8, 3⟩).2[1]? =
          some ⟨3, 2, 100, 3⟩ ∧
      ∃ i t', i < 1 ∧
        (addOrder (reach [Op.add (⟨1, Side.BUY, 100, 5, 1⟩ : Order Int),
          Op.add ⟨2, Side.BUY, 100, 5, 2⟩]) ⟨3, Side.SELL, 100, 8, 3⟩).2[i]? = some t' ∧
        t'.maker = 1 :=
  ⟨by decide, by decide, by decide,
    C4_time_priority [Op.add (⟨1, Side.BUY, 100, 5, 1⟩ : Order Int),
      Op.add ⟨2, Side.BUY, 100, 5, 2⟩] (by decide) (by decide) ⟨3, Side.SELL, 100, 8, 3⟩
      ⟨1, Side.BUY, 100, 5, 1⟩ ⟨2, Side.BUY, 100, 5, 2⟩ (by decide) (by decide) rfl
      (by decide) 1 ⟨3, 2, 100, 3⟩ (by decide) rfl⟩

/-- C5 (trade record contents) fails at a NaN price: after `BUY 10@100` (id 1),
`bids[NaN]` finds the level of key 100, so `BUY 5@NaN` (id 2) rests in that
level; `addOrder(SELL 15@100, id 3)` then returns the trade `(3, 2, 100, 5)`,
whose price 100 is the level key and not the price NaN stored in its maker. -/
theorem C5_nan_maker_price :
    bookOrders (reach [Op.add (⟨1, Side.BUY, Double.num 100, 10, 1⟩ : Order Double),
        Op.add ⟨2, Side.BUY, Double.nan, 5, 2⟩]).bids =
      [⟨1, Side.BUY, Double.num 100, 10, 1⟩, ⟨2, Side.BUY, Double.nan, 5, 2⟩] ∧
    (addOrder (reach [Op.add (⟨1, Side.BUY, Double.num 100, 10, 1⟩ : Order Double),
        Op.add ⟨2, Side.BUY, Double.nan, 5, 2⟩]) ⟨3, Side.SELL, Double.num 100, 15, 3⟩).2 =
      [⟨3, 1, Double.num 100, 10⟩, ⟨3, 2, Double.num 100, 5⟩] ∧
    ¬ ∃ m ∈ bookOrders (bookOf (reach [Op.add (⟨1, Side.BUY, Double.num 100, 10, 1⟩ : Order Double),
        Op.add ⟨2, Side.BUY, Double.nan, 5, 2⟩]) Side.BUY),
      m.id = 2 ∧ Double.num 100 = m.price := by
  decide

/-- C5 as amended: when no price is NaN (the prices are linearly ordered by `<`),
in every reachable state each trade returned by `addOrder(o)` has `o.id` as
taker, and its maker is the identifier of an order that rested on the side
opposite to `o.side` before the call, whose own price is the trade price. -/
theorem C5_trade_contents (ops : List (Op P)) (o : Order P) :
    ∀ t ∈ (addOrder (reach ops) o).2,
      t.taker = o.id ∧
      ∃ m ∈ bookOrders (bookOf (reach ops) o.side.opposite),
        m.side = o.side.opposite ∧ m.id = t.maker ∧ t.price = m.price := by
  intro t ht
  rw [addOrder_trades] at ht
  obtain ⟨T', e1, k1, p1⟩ := matchLoop_trades (crossesOn o.side.opposite)
    (bookOf (reach ops) o.side.opposite) o (reach ops).orderIndex []
  have e2 : (addOrderMatch (reach ops) o).trades = T' := by simpa [addOrderMatch] using e1
  rw [e2] at ht
  refine ⟨k1 t ht, ?_⟩
  have hmem : (t.maker, t.price) ∈ bookMakers (bookOf (reach ops) o.side.opposite) :=
    p1.subset (List.mem_map.mpr ⟨t, ht, rfl⟩)
  obtain ⟨kl, hkl, m, hm, h1, h2⟩ := mem_bookMakers.mp hmem
  have hr := ((reach_wf ops o.side.opposite).2 kl hkl).2 m hm
  refine ⟨m, mem_bookOrders.mpr ⟨kl, hkl, hm⟩, hr.1, h1, ?_⟩
  rw [hr.2.1]
  exact h2.symm

/-- A `SELL 10@95` against a resting `BUY 10@100`: the trade is at 100. -/
theorem C5_trade_contents_witness :
    (⟨2, 1, 100, 10⟩ : Trade Int).taker = 2 ∧
      ∃ m ∈ bookOrders (bookOf (reach [Op.add (⟨1, Side.BUY, 100, 10, 1⟩ : Order Int)])
          Side.BUY),
        m.side = Side.BUY ∧ m.id = 1 ∧ (100 : Int) = m.price :=
  C5_trade_contents [Op.add (⟨1, Side.BUY, 100, 10, 1⟩ : Order Int)]
    ⟨2, Side.SELL, 95, 10, 2⟩ ⟨2, 1, 100, 10⟩ (by decide)

/-- C8 (cancel of an unknown id): in every engine state, `cancelOrder` of an
identifier without an `orderIndex` entry returns false and leaves the engine as
it was. -/
theorem C8_cancel_unknown (e : MatchingEngine P) (id : OrderId)
    (h : indexFind e.orderIndex id = none) : cancelOrder e id = (e, false) :=
  cancelOrder_absent e id h

/-- Cancelling id 7 when only id 1 rests. -/
theorem C8_cancel_unknown_witness :
    indexFind (reach [Op.add (⟨1, Side.BUY, 100, 10, 1⟩ : Order Int)]).orderIndex 7 = none ∧
      cancelOrder (reach [Op.add (⟨1, Side.BUY, 100, 10, 1⟩ : Order Int)]) 7 =
        (reach [Op.add (⟨1, Side.BUY, 100, 10, 1⟩ : Order Int)], false) :=
  ⟨by decide, C8_cancel_unknown _ 7 (by decide)⟩

/-- C10 (a fully consumed incoming order never rests), evaluated on the code:
after `BUY 10@100` (id 1), `addOrder(SELL 10@100, id 2)` trades the full
quantity 10, and afterwards id 2 rests in `asks` with quantity 10 and has an
`orderIndex` entry. -/
theorem C10_consumed_order_rests :
    tradedQuantity (addOrder (reach [Op.add (⟨1, Side.BUY, 100, 10, 1⟩ : Order Int)])
        ⟨2, Side.SELL, 100, 10, 2⟩).2 = 10 ∧
    (addOrder (reach [Op.add (⟨1, Side.BUY, 100, 10, 1⟩ : Order Int)])
        ⟨2, Side.SELL, 100, 10, 2⟩).1 =
      ⟨[], [(100, [⟨2, Side.SELL, 100, 10, 2⟩])], [(2, ⟨Side.SELL, 100, 0⟩)]⟩ ∧
    (reach [Op.add (⟨1, Side.BUY, 100, 10, 1⟩ : Order Int),
        Op.add ⟨2, Side.SELL, 100, 10, 2⟩]).asks ≠ [] := by
  decide

/-- C11 (book side invariant) fails at a NaN price: after `BUY 10@100` (id 1)
and `BUY 5@NaN` (id 2), distinct identifiers, the level of key 100 holds order
2, whose price NaN is not the key of its level. -/
theorem C11_nan_in_level :
    (reach [Op.add (⟨1, Side.BUY, Double.num 100, 10, 1⟩ : Order Double),
        Op.add ⟨2, Side.BUY, Double.nan, 5, 2⟩]).bids =
      [(Double.num 100,
        [⟨1, Side.BUY, Double.num 100, 10, 1⟩, ⟨2, Side.BUY, Double.nan, 5, 2⟩])] ∧
    (⟨2, Side.BUY, Double.nan, 5, 2⟩ : Order Double).price ≠ Double.num 100 := by
  decide

/-- C11 as amended: when no price is NaN (the prices are linearly ordered by
`<`), in every state reached from the empty engine by `addOrder` and
`cancelOrder` calls, every level stored in `bids` and in `asks` is non-empty,
no price is the key of two levels of one side, and every order of a level has
the side of its book and the key of its level as price. -/
theorem C11_book_side_invariant (ops : List (Op P)) (s : Side) :
    (∀ kl ∈ bookOf (reach ops) s, kl.2 ≠ [] ∧ ∀ o ∈ kl.2, o.side = s ∧ o.price = kl.1) ∧
      ((bookOf (reach ops) s).map Prod.fst).Nodup := by
  have h := reach_wf ops s
  refine ⟨fun kl hkl => ⟨(h.2 kl hkl).1, fun o ho => ?_⟩, h.1.keys_nodup⟩
  exact ⟨((h.2 kl hkl).2 o ho).1, ((h.2 kl hkl).2 o ho).2.1⟩

/-- The bid level at 100 after two bids at 100, a bid at 99 and a cancel. -/
theorem C11_book_side_invariant_witness :
    ([⟨2, Side.BUY, 100, 5, 2⟩] : PriceLevel Int) ≠ [] ∧
      ∀ o ∈ ([⟨2, Side.BUY, 100, 5, 2⟩] : PriceLevel Int), o.side = Side.BUY ∧ o.price = 100 :=
  (C11_book_side_invariant [Op.add (⟨1, Side.BUY, 100, 15, 1⟩ : Order Int),
    Op.add ⟨2, Side.BUY, 100, 5, 2⟩, Op.add ⟨3, Side.BUY, 99, 5, 3⟩, Op.cancel 1]
    Side.BUY).1 (100, [⟨2, Side.BUY, 100, 5, 2⟩]) (by decide)

/-- C13 (exact fill of a single maker) fails at the price NaN: after
`addOrder(BUY 10@NaN, id 1)` the call `addOrder(SELL 10@NaN, id 2)` returns no
trade, because `NaN <= NaN` is false, and both orders rest. -/
theorem C13_nan_no_fill :
    addOrder (reach [Op.add (⟨1, Side.BUY, Double.nan, 10, 1⟩ : Order Double)])
        ⟨2, Side.SELL, Double.nan, 10, 2⟩ =
      (⟨[(Double.nan, [⟨1, Side.BUY, Double.nan, 10, 1⟩])],
        [(Double.nan, [⟨2, Side.SELL, Double.nan, 10, 2⟩])],
        [(1, ⟨Side.BUY, Double.nan, 0⟩), (2, ⟨Side.SELL, Double.nan, 0⟩)]⟩, []) ∧
    (addOrder (reach [Op.add (⟨1, Side.BUY, Double.nan, 10, 1⟩ : Order Double)])
        ⟨2, Side.SELL, Double.nan, 10, 2⟩).2 ≠ [⟨2, 1, Double.nan, 10⟩] := by
  decide

/-- C13 as amended: from the empty engine, for every price `p` that is not NaN
(a price of a linearly ordered type), quantity `q > 0` and distinct identifiers
`a`, `b`, after `addOrder(BUY q@p, id a)` the call `addOrder(SELL q@p, id b)`
returns exactly `[(b, a, p, q)]`, and afterwards no order of identifier `a`
rests, `a` has no `orderIndex` entry, and `cancelOrder(a)` returns false. -/
theorem C13_exact_fill (p : P) (q : Nat) (a b : OrderId) (ta tb : Nat) (hq : 0 < q)
    (hab : a ≠ b) :
    (addOrder (reach [Op.add (⟨a, Side.BUY, p, q, ta⟩ : Order P)])
        ⟨b, Side.SELL, p, q, tb⟩).2 = [⟨b, a, p, q⟩] ∧
    (∀ s, ∀ x ∈ bookOrders (bookOf (addOrder (reach [Op.add (⟨a, Side.BUY, p, q, ta⟩ : Order P)])
        ⟨b, Side.SELL, p, q, tb⟩).1 s), x.id ≠ a) ∧
    indexFind (addOrder (reach [Op.add (⟨a, Side.BUY, p, q, ta⟩ : Order P)])
        ⟨b, Side.SELL, p, q, tb⟩).1.orderIndex a = none ∧
    (cancelOrder (addOrder (reach [Op.add (⟨a, Side.BUY, p, q, ta⟩ : Order P)])
        ⟨b, Side.SELL, p, q, tb⟩).1 a).2 = false := by
  rw [reach_single_buy p q a ta hq, addOrder_sell_exact p q a b ta tb hq]
  have hba : ¬ b = a := fun h => hab h.symm
  have hfind : indexFind ([(b, ⟨Side.SELL, p, 0⟩)] : OrderIndex P) a = none := by
    simp [indexFind, hba]
  refine ⟨rfl, ?_, hfind, ?_⟩
  · intro s x hx
    cases s with
    | BUY => simp [bookOf, bookOrders] at hx
    | SELL =>
      simp only [bookOf, bookOrders, List.map_cons, List.map_nil, List.flatten_cons,
        List.flatten_nil, List.append_nil, List.mem_singleton] at hx
      rw [hx]
      exact hba
  · rw [cancelOrder_absent _ a hfind]

/-- The test `Simple match BUY then SELL`: `BUY 10@100` (id 1), `SELL 10@100`
(id 2). -/
theorem C13_exact_fill_witness :
    0 < 10 ∧ (1 : OrderId) ≠ 2 ∧
      (addOrder (reach [Op.add (⟨1, Side.BUY, 100, 10, 1⟩ : Order Int)])
        ⟨2, Side.SELL, 100, 10, 2⟩).2 = [⟨2, 1, 100, 10⟩] ∧
      (cancelOrder (addOrder (reach [Op.add (⟨1, Side.BUY, 100, 10, 1⟩ : Order Int)])
        ⟨2, Side.SELL, 100, 10, 2⟩).1 1).2 = false :=
  ⟨by decide, by decide,
    (C13_exact_fill (100 : Int) 10 1 2 1 2 (by decide) (by decide)).1,
    (C13_exact_fill (100 : Int) 10 1 2 1 2 (by decide) (by decide)).2.2.2⟩

/-- C14 (partial fill of the maker) fails in two reachable states.  With a
reused identifier: after `BUY 10@100` (id 1), `BUY 10@101` (id 1) and
`cancelOrder(1)` the head of the best bid level is the order of id 1 at 100
with no `orderIndex` entry; `addOrder(SELL 5@100, id 2)` trades 5 against it and
leaves it at the head with quantity 5 and still no entry.  With a NaN price:
after `BUY 10@100` (id 1), `BUY 5@NaN` (id 2) and `cancelOrder(1)` the head of
the level of key 100 is order 2 with price NaN; `addOrder(SELL 2@100, id 3)`
returns the trade `(3, 2, 100, 2)`, whose price is not the price of the head. -/
theorem C14_head_without_entry_or_price :
    ((reach [Op.add (⟨1, Side.BUY, 100, 10, 1⟩ : Order Int), Op.add ⟨1, Side.BUY, 101, 10, 2⟩,
        Op.cancel 1]) = ⟨[(100, [⟨1, Side.BUY, 100, 10, 1⟩])], [], []⟩ ∧
      addOrder (reach [Op.add (⟨1, Side.BUY, 100, 10, 1⟩ : Order Int),
          Op.add ⟨1, Side.BUY, 101, 10, 2⟩, Op.cancel 1]) ⟨2, Side.SELL, 100, 5, 3⟩ =
        (⟨[(100, [⟨1, Side.BUY, 100, 5, 1⟩])], [(100, [⟨2, Side.SELL, 100, 5, 3⟩])],
          [(2, ⟨Side.SELL, 100, 0⟩)]⟩, [⟨2, 1, 100, 5⟩]) ∧
      indexFind (addOrder (reach [Op.add (⟨1, Side.BUY, 100, 10, 1⟩ : Order Int),
          Op.add ⟨1, Side.BUY, 101, 10, 2⟩, Op.cancel 1])
          ⟨2, Side.SELL, 100, 5, 3⟩).1.orderIndex 1 = none) ∧
    ((reach [Op.add (⟨1, Side.BUY, Double.num 100, 10, 1⟩ : Order Double),
        Op.add ⟨2, Side.BUY, Double.nan, 5, 2⟩, Op.cancel 1]).bids =
        [(Double.num 100, [⟨2, Side.BUY, Double.nan, 5, 2⟩])] ∧
      (addOrder (reach [Op.add (⟨1, Side.BUY, Double.num 100, 10, 1⟩ : Order Double),
          Op.add ⟨2, Side.BUY, Double.nan, 5, 2⟩, Op.cancel 1])
          ⟨3, Side.SELL, Double.num 100, 2, 3⟩).2 = [⟨3, 2, Double.num 100, 2⟩] ∧
      (⟨3, 2, Double.num 100, 2⟩ : Trade Double) ≠
        ⟨3, 2, (⟨2, Side.BUY, Double.nan, 5, 2⟩ : Order Double).price, 2⟩) := by
  decide

/-- C14 as amended: when no price is NaN (the prices are linearly ordered by
`<`), in a state reached by calls with pairwise distinct identifiers whose best
opposite level has key `k` and head `h`, a crossing order `o` whose identifier
was not used before, with `0 < o.quantity < h.quantity`, makes `addOrder(o)`
return exactly the trade `(o.id, h.id, h.price, o.quantity)`; afterwards `h` is
still the head of that level with quantity `h.quantity - o.quantity` and has
its `orderIndex` entry; and a following crossing order `o2` of that remaining
quantity yields exactly one trade of that quantity and removes `h` from the
book. -/
theorem C14_partial_fill (ops : List (Op P)) (o o2 h : Order P) (k : P)
    (rest : PriceLevel P) (tail : Book P)
    (hids : (addedIds (ops ++ [Op.add o])).Nodup)
    (hbook : bookOf (reach ops) o.side.opposite = (k, h :: rest) :: tail)
    (hcross : (o.side = Side.BUY → k ≤ o.price) ∧ (o.side = Side.SELL → o.price ≤ k))
    (hq : 0 < o.quantity) (hlt : o.quantity < h.quantity)
    (h2side : o2.side = o.side)
    (h2cross : (o2.side = Side.BUY → k ≤ o2.price) ∧ (o2.side = Side.SELL → o2.price ≤ k))
    (h2q : o2.quantity = h.quantity - o.quantity) :
    (addOrder (reach ops) o).2 = [⟨o.id, h.id, h.price, o.quantity⟩] ∧
    bookOf (addOrder (reach ops) o).1 o.side.opposite =
      (k, { h with quantity := h.quantity - o.quantity } :: rest) :: tail ∧
    indexFind (addOrder (reach ops) o).1.orderIndex h.id = some ⟨o.side.opposite, k, 0⟩ ∧
    (addOrder (addOrder (reach ops) o).1 o2).2 =
      [⟨o2.id, h.id, h.price, h.quantity - o.quantity⟩] ∧
    bookOf (addOrder (addOrder (reach ops) o).1 o2).1 o.side.opposite =
      (if rest.isEmpty then tail else (k, rest) :: tail) ∧
    ∀ x ∈ bookOrders (bookOf (addOrder (addOrder (reach ops) o).1 o2).1 o.side.opposite),
      x.id ≠ h.id := by
  rw [addedIds_snoc_add] at hids
  have hn := List.nodup_append.mp hids
  have hfresh : o.id ∉ addedIds ops := fun hx => hn.2.2 hx (List.mem_singleton_self _)
  obtain ⟨hwf, hidx, hU⟩ := reach_consistent ops hn.1
  have hcr : ∀ x : Order P, x.side = o.side →
      ((x.side = Side.BUY → k ≤ x.price) ∧ (x.side = Side.SELL → x.price ≤ k)) →
      crossesOn o.side.opposite x k = true := by
    intro x hx hxc
    rw [← hx]
    cases hs : x.side with
    | BUY => simp [crossesOn, Side.opposite, hxc.1 hs, hs]
    | SELL => simp [crossesOn, Side.opposite, hxc.2 hs, hs]
  have hhmem : h ∈ bookOrders (bookOf (reach ops) o.side.opposite) := by
    rw [hbook, bookOrders_cons]
    simp
  have hprice : h.price = k := by
    have := (hwf o.side.opposite).2 (k, h :: rest) (by rw [hbook]; exact List.mem_cons_self _ _)
    exact (this.2 h (List.mem_cons_self _ _)).2.1
  have hrest : RestsAt (reach ops) o.side.opposite k 0 h :=
    ⟨h :: rest, by rw [hbook]; simp [mapFind_nil, mapFind_cons], by simp⟩
  have hne : h.id ≠ o.id := fun he => hfresh (he ▸ hU _ h hhmem)
  -- the first call
  have hm1 : addOrderMatch (reach ops) o =
      ⟨{ o with quantity := 0 },
        (k, { h with quantity := h.quantity - o.quantity } :: rest) :: tail,
        (reach ops).orderIndex, [⟨o.id, h.id, k, o.quantity⟩]⟩ := by
    simp only [addOrderMatch, hbook]
    exact matchLoop_partial _ o h k rest tail _ (hcr o rfl hcross) hq hlt
  have hb1 : bookOf (addOrder (reach ops) o).1 o.side.opposite =
      (k, { h with quantity := h.quantity - o.quantity } :: rest) :: tail := by
    rw [addOrder_opposite_book, hm1]
  -- the second call
  have hm2 : addOrderMatch (addOrder (reach ops) o).1 o2 =
      ⟨{ o2 with quantity := 0 }, if rest.isEmpty then tail else (k, rest) :: tail,
        reindexFrom rest 0 (indexErase (addOrder (reach ops) o).1.orderIndex h.id),
        [⟨o2.id, h.id, k, o2.quantity⟩]⟩ := by
    have hb2 : bookOf (addOrder (reach ops) o).1 o2.side.opposite =
        (k, { h with quantity := h.quantity - o.quantity } :: rest) :: tail := by
      rw [h2side]
      exact hb1
    have hc2 : crossesOn o2.side.opposite o2 k = true := by
      rw [h2side]
      exact hcr o2 h2side h2cross
    simp only [addOrderMatch, hb2]
    exact matchLoop_exact _ o2 { h with quantity := h.quantity - o.quantity } k rest tail _
      hc2 (by omega) h2q
  refine ⟨?_, hb1, ?_, ?_, ?_, ?_⟩
  · rw [addOrder_trades, hm1, hprice]
  · rw [addOrder_steps, if_pos hq, insertOrder_orderIndex _ _ (afterMatch_wf _ o hwf),
      indexFind_indexAssign, if_neg hne, afterMatch_orderIndex, hm1]
    exact hidx.1 _ _ _ _ hrest
  · rw [addOrder_trades, hm2, hprice, h2q]
  · rw [← h2side, addOrder_opposite_book, hm2]
  · rw [← h2side, addOrder_opposite_book, hm2]
    have hnd := (hidx.levelsOK hwf o.side.opposite).nodup_book (hwf _).1
    rw [hbook, bookOrders_cons] at hnd
    simp only [List.cons_append, List.map_cons, List.nodup_cons, List.mem_map, not_exists,
      not_and] at hnd
    intro x hx
    refine hnd.1 x ?_
    by_cases he : rest.isEmpty
    · have hr : rest = [] := by simpa using he
      simp only [he, if_true] at hx
      simp [hr, hx]
    · simp only [he] at hx
      simpa [bookOrders_cons] using hx

/-- The test `Partial fills and multiple matches`: `BUY 15@100` (id 1), then
`SELL 5@100` (id 2), then `SELL 10@100` (id 3). -/
theorem C14_partial_fill_witness :
    (addedIds ([Op.add (⟨1, Side.BUY, 100, 15, 1⟩ : Order Int)] ++
        [Op.add ⟨2, Side.SELL, 100, 5, 2⟩])).Nodup ∧
      (addOrder (reach [Op.add (⟨1, Side.BUY, 100, 15, 1⟩ : Order Int)])
        ⟨2, Side.SELL, 100, 5, 2⟩).2 = [⟨2, 1, 100, 5⟩] ∧
      (addOrder (addOrder (reach [Op.add (⟨1, Side.BUY, 100, 15, 1⟩ : Order Int)])
        ⟨2, Side.SELL, 100, 5, 2⟩).1 ⟨3, Side.SELL, 100, 10, 3⟩).2 = [⟨3, 1, 100, 10⟩] :=
  ⟨by decide,
    (C14_partial_fill [Op.add (⟨1, Side.BUY, 100, 15, 1⟩ : Order Int)]
      ⟨2, Side.SELL, 100, 5, 2⟩ ⟨3, Side.SELL, 100, 10, 3⟩ ⟨1, Side.BUY, 100, 15, 1⟩ 100 [] []
      (by decide) (by decide) (by decide) (by decide) (by decide) (by decide) (by decide)
      (by decide)).1,
    (C14_partial_fill [Op.add (⟨1, Side.BUY, 100, 15, 1⟩ : Order Int)]
      ⟨2, Side.SELL, 100, 5, 2⟩ ⟨3, Side.SELL, 100, 10, 3⟩ ⟨1, Side.BUY, 100, 15, 1⟩ 100 [] []
      (by decide) (by decide) (by decide) (by decide) (by decide) (by decide) (by decide)
      (by decide)).2.2.2.1⟩

/-- C16 (invalid input is rejected without mutation) fails for a non-positive
price: on the empty engine `addOrder(BUY 10 @ -5, id 1)` inserts the order into
`bids` and enters it in `orderIndex`. -/
theorem C16_nonpositive_price_inserted :
    ¬ (0 < (-5 : Int)) ∧
      (addOrder (MatchingEngine.empty : MatchingEngine Int) ⟨1, Side.BUY, -5, 10, 1⟩).1 =
        ⟨[(-5, [⟨1, Side.BUY, -5, 10, 1⟩])], [], [(1, ⟨Side.BUY, -5, 0⟩)]⟩ ∧
      (addOrder (MatchingEngine.empty : MatchingEngine Int) ⟨1, Side.BUY, -5, 10, 1⟩).1 ≠
        MatchingEngine.empty := by
  decide

/-- C16 as amended: in every engine state, `addOrder` of an order whose quantity
is zero returns no trades and leaves `bids`, `asks` and `orderIndex` as they
were, whatever its price. -/
theorem C16_zero_quantity_unchanged (e : MatchingEngine P) (o : Order P)
    (hq : o.quantity = 0) : addOrder e o = (e, []) :=
  addOrder_zero e o hq

/-- A `SELL 0@100` against a resting `BUY 10@100`. -/
theorem C16_zero_quantity_unchanged_witness :
    (⟨2, Side.SELL, 100, 0, 2⟩ : Order Int).quantity = 0 ∧
      addOrder (reach [Op.add (⟨1, Side.BUY, 100, 10, 1⟩ : Order Int)])
          ⟨2, Side.SELL, 100, 0, 2⟩ =
        (reach [Op.add (⟨1, Side.BUY, 100, 10, 1⟩ : Order Int)], []) :=
  ⟨rfl, C16_zero_quantity_unchanged _ _ rfl⟩

/-- C18 (one trade per maker, and only the last maker can survive): in every
state reached with pairwise distinct identifiers and for every `addOrder(o)`
with a fresh identifier, the makers of the returned trades are pairwise
distinct; every maker but the one of the last trade is filled for its whole
resting quantity, rests in no level afterwards and has no `orderIndex` entry;
and if the maker of the last trade still rests afterwards, the executed
quantities sum to `o.quantity`. -/
theorem C18_one_trade_per_maker (ops : List (Op P)) (o : Order P)
    (hids : (addedIds (ops ++ [Op.add o])).Nodup) :
    ((addOrder (reach ops) o).2.map (fun t => t.maker)).Nodup ∧
    (∀ (i : Nat) (t : Trade P), (addOrder (reach ops) o).2[i]? = some t →
      i + 1 < (addOrder (reach ops) o).2.length →
      (∃ m ∈ bookOrders (bookOf (reach ops) o.side.opposite),
        m.id = t.maker ∧ t.quantity = m.quantity) ∧
      (∀ s, ∀ x ∈ bookOrders (bookOf (addOrder (reach ops) o).1 s), x.id ≠ t.maker) ∧
      indexFind (addOrder (reach ops) o).1.orderIndex t.maker = none) ∧
    (∀ t, (addOrder (reach ops) o).2.getLast? = some t →
      (∃ s, ∃ x ∈ bookOrders (bookOf (addOrder (reach ops) o).1 s), x.id = t.maker) →
      tradedQuantity (addOrder (reach ops) o).2 = o.quantity) := by
  rw [addedIds_snoc_add] at hids
  have hn := List.nodup_append.mp hids
  have hfresh : o.id ∉ addedIds ops := fun h => hn.2.2 h (List.mem_singleton_self _)
  have hc := reach_consistent ops hn.1
  obtain ⟨hwf, hidx, hU⟩ := hc
  have hc' := addOrder_consistent _ _ o (reach_consistent ops hn.1) hfresh
  have hpre := addOrder_makers_prefix (reach ops) o
  have hnd := (hidx.levelsOK hwf o.side.opposite).nodup_book (hwf _).1
  obtain ⟨n, hfill, hlen⟩ := addOrder_fills (reach ops) o hwf hidx
  -- a maker rests on the opposite side before the call, so not on the side of `o` after it
  have hown : ∀ t ∈ (addOrder (reach ops) o).2,
      ∀ x ∈ bookOrders (bookOf (addOrder (reach ops) o).1 o.side), x.id ≠ t.maker := by
    intro t ht x hx hxid
    obtain ⟨m, hm, hmid⟩ := addOrder_maker_rests _ o t ht
    rcases addOrder_orders _ o hwf o.side x hx with ⟨y, hy, hyx⟩ | hxo
    · exact hidx.sides_disjoint hwf (Side.opposite_ne o.side).symm hy hm
        (hyx.trans (hxid.trans hmid.symm))
    · exact hfresh (by rw [← hxo, hxid, ← hmid]; exact hU _ m hm)
  refine ⟨?_, ?_, ?_⟩
  · exact List.Nodup.sublist hpre.sublist hnd
  · intro i t ht hi
    have hin : i < n := by
      rcases hlen with h | ⟨h, _⟩ <;> omega
    obtain ⟨hm, hgone⟩ := hfill i t hin ht
    have hrest : ∀ s, ∀ x ∈ bookOrders (bookOf (addOrder (reach ops) o).1 s),
        x.id ≠ t.maker := by
      intro s x hx
      rcases Side.eq_or_opposite o.side s with hs | hs
      · subst hs
        exact hown t (List.getElem?_mem ht) x hx
      · subst hs
        exact hgone x hx
    refine ⟨hm, hrest, ?_⟩
    cases hf : indexFind (addOrder (reach ops) o).1.orderIndex t.maker with
    | none => rfl
    | some entry =>
      obtain ⟨x, hx, hxid⟩ := hc'.2.1.rests hf
      exact absurd hxid (hrest _ x hx)
  · intro t hlast hrests
    rw [List.getLast?_eq_getElem?] at hlast
    have hlt : (addOrder (reach ops) o).2.length - 1 < (addOrder (reach ops) o).2.length :=
      (List.getElem?_eq_some.mp hlast).1
    rcases hlen with h | ⟨_, h⟩
    · exfalso
      obtain ⟨s, x, hx, hxid⟩ := hrests
      obtain ⟨_, hgone⟩ := hfill _ t (by omega) hlast
      rcases Side.eq_or_opposite o.side s with hs | hs
      · subst hs
        exact hown t (List.getElem?_mem hlast) x hx hxid
      · subst hs
        exact hgone x hx hxid
    · exact h

/-- Bids of 5 and 5 at 100 and a `SELL 8@100`: the first maker (id 1) is filled
for its 5 and leaves; the last maker (id 2) keeps 2. -/
theorem C18_one_trade_per_maker_witness :
    (addedIds ([Op.add (⟨1, Side.BUY, 100, 5, 1⟩ : Order Int), Op.add ⟨2, Side.BUY, 100, 5, 2⟩]
        ++ [Op.add ⟨3, Side.SELL, 100, 8, 3⟩])).Nodup ∧
      (addOrder (reach [Op.add (⟨1, Side.BUY, 100, 5, 1⟩ : Order Int),
        Op.add ⟨2, Side.BUY, 100, 5, 2⟩]) ⟨3, Side.SELL, 100, 8, 3⟩).2 =
          [⟨3, 1, 100, 5⟩, ⟨3, 2, 100, 3⟩] ∧
      indexFind (addOrder (reach [Op.add (⟨1, Side.BUY, 100, 5, 1⟩ : Order Int),
        Op.add ⟨2, Side.BUY, 100, 5, 2⟩]) ⟨3, Side.SELL, 100, 8, 3⟩).1.orderIndex 1 = none ∧
      tradedQuantity (addOrder (reach [Op.add (⟨1, Side.BUY, 100, 5, 1⟩ : Order Int),
        Op.add ⟨2, Side.BUY, 100, 5, 2⟩]) ⟨3, Side.SELL, 100, 8, 3⟩).2 = 8 :=
  ⟨by decide, by decide,
    ((C18_one_trade_per_maker [Op.add (⟨1, Side.BUY, 100, 5, 1⟩ : Order Int),
      Op.add ⟨2, Side.BUY, 100, 5, 2⟩] ⟨3, Side.SELL, 100, 8, 3⟩ (by decide)).2.1
      0 ⟨3, 1, 100, 5⟩ (by decide) (by decide)).2.2,
    (C18_one_trade_per_maker [Op.add (⟨1, Side.BUY, 100, 5, 1⟩ : Order Int),
      Op.add ⟨2, Side.BUY, 100, 5, 2⟩] ⟨3, Side.SELL, 100, 8, 3⟩ (by decide)).2.2
      ⟨3, 2, 100, 3⟩ (by decide) ⟨Side.BUY, ⟨2, Side.BUY, 100, 2, 2⟩, by decide, rfl⟩⟩

/-- C19 (positive quantities): in every state reached from the empty engine by
`addOrder` and `cancelOrder` calls with any quantities, every order stored in
`bids` or `asks` has a quantity of at least 1, and every trade returned by an
`addOrder` call in such a state has an executed quantity of at least 1. -/
theorem C19_positive_quantities (ops : List (Op P)) :
    (∀ s, ∀ x ∈ bookOrders (bookOf (reach ops) s), 1 ≤ x.quantity) ∧
      ∀ o : Order P, ∀ t ∈ (addOrder (reach ops) o).2, 1 ≤ t.quantity := by
  constructor
  · intro s x hx
    obtain ⟨kl, hkl, hxl⟩ := mem_bookOrders.mp hx
    exact (((reach_wf ops s).2 kl hkl).2 x hxl).2.2
  · intro o t ht
    rw [addOrder_trades] at ht
    rcases matchLoop_trades_pos (crossesOn o.side.opposite) o.side.opposite
      (bookOf (reach ops) o.side.opposite) o (reach ops).orderIndex []
      (reach_wf ops _) t ht with h | h
    · simp at h
    · exact h

/-- A run with a zero-quantity order, then a `SELL 3@100` that trades. -/
theorem C19_positive_quantities_witness :
    1 ≤ (⟨3, 1, 100, 3⟩ : Trade Int).quantity :=
  (C19_positive_quantities [Op.add (⟨1, Side.BUY, 100, 10, 1⟩ : Order Int),
    Op.add ⟨2, Side.BUY, 101, 0, 2⟩]).2 ⟨3, Side.SELL, 100, 3, 3⟩ ⟨3, 1, 100, 3⟩ (by decide)

/-- C20 (a duplicate identifier overwrites the index and orphans the earlier
order): after `addOrder(BUY 10@100, id 1)` and `addOrder(BUY 10@101, id 1)` both
orders rest and `orderIndex` holds the single entry `1 -> (BUY, 101, 0)`;
`cancelOrder(1)` returns true and removes only the order at 101; a second
`cancelOrder(1)` returns false while the order at 100 still rests; and a later
`SELL 10@100` trades against it. -/
theorem C20_duplicate_id_orphan :
    reach [Op.add (⟨1, Side.BUY, 100, 10, 1⟩ : Order Int), Op.add ⟨1, Side.BUY, 101, 10, 2⟩] =
        ⟨[(101, [⟨1, Side.BUY, 101, 10, 2⟩]), (100, [⟨1, Side.BUY, 100, 10, 1⟩])], [],
          [(1, ⟨Side.BUY, 101, 0⟩)]⟩ ∧
      cancelOrder (reach [Op.add (⟨1, Side.BUY, 100, 10, 1⟩ : Order Int),
          Op.add ⟨1, Side.BUY, 101, 10, 2⟩]) 1 =
        (⟨[(100, [⟨1, Side.BUY, 100, 10, 1⟩])], [], []⟩, true) ∧
      cancelOrder (reach [Op.add (⟨1, Side.BUY, 100, 10, 1⟩ : Order Int),
          Op.add ⟨1, Side.BUY, 101, 10, 2⟩, Op.cancel 1]) 1 =
        (⟨[(100, [⟨1, Side.BUY, 100, 10, 1⟩])], [], []⟩, false) ∧
      (addOrder (reach [Op.add (⟨1, Side.BUY, 100, 10, 1⟩ : Order Int),
          Op.add ⟨1, Side.BUY, 101, 10, 2⟩, Op.cancel 1, Op.cancel 1])
          ⟨2, Side.SELL, 100, 10, 3⟩).2 = [⟨2, 1, 100, 10⟩] := by
  decide

end Claims

end Exchange
